import Mathlib

/-!
Verification of the kourai media-library linker.

This file gives a shallow embedding of the Go package `kourai`
(filename classifier, TMDB metadata matching, link planning, filesystem
link creation and the filtered directory walk) and proves or refutes the
behavioural claims about it.

Conventions of the embedding:
* Go strings are modelled as `List Char` (the repository only handles
  ASCII release names; at ASCII, Go byte indices coincide with character
  indices).  The exported entry points wrap these in `String`.
* Go `int` is modelled as `Int`; `strconv.Atoi` overflow at
  `2^63 - 1` is modelled explicitly.
* The regular expressions of the package (`episodeExpr`, `dateExpr`,
  `sentinelExpr`, `seasonExpr`) are compiled by hand into backtracking
  matchers with Go's leftmost-first semantics, specialised to the exact
  patterns of the source.
* Network, clock and filesystem effects are modelled by explicit state /
  oracle parameters.
-/

namespace Kourai

/-! ## Character classes (ASCII, as used by Go regexp and x/text at ASCII) -/

/-- ASCII lower-casing of a character, as Go strings.ToLower at ASCII. -/
def lowCh (c : Char) : Char :=
  if 'A' ≤ c ∧ c ≤ 'Z' then Char.ofNat (c.toNat + 32) else c

/-- ASCII upper-casing of a character, as Go strings.ToUpper at ASCII. -/
def upCh (c : Char) : Char :=
  if 'a' ≤ c ∧ c ≤ 'z' then Char.ofNat (c.toNat - 32) else c

/-- Go regexp `\d`: the ASCII digits. -/
def digitCh (c : Char) : Bool :=
  '0' ≤ c ∧ c ≤ '9'

/-- Go regexp word character (for `\b`): `[0-9A-Za-z_]`. -/
def wordCh (c : Char) : Bool :=
  digitCh c ∨ ('a' ≤ c ∧ c ≤ 'z') ∨ ('A' ≤ c ∧ c ≤ 'Z') ∨ c = '_'

/-- Case-insensitive character comparison (ASCII). -/
def ciEq (a b : Char) : Bool :=
  lowCh a = lowCh b

/-! ## Small string helpers shared by the matchers -/

/-- Maximal digit prefix of a character list, with the remainder. -/
def takeDigits : List Char → List Char × List Char
  | [] => ([], [])
  | c :: cs =>
    if digitCh c then (c :: (takeDigits cs).1, (takeDigits cs).2)
    else ([], c :: cs)

theorem takeDigits_append_eq (cs : List Char)
    (h : (takeDigits cs).2 ≠ []) (m : List Char) :
    takeDigits (cs ++ m) = ((takeDigits cs).1, (takeDigits cs).2 ++ m) := by
  induction cs with
  | nil => simp [takeDigits] at h
  | cons c cs ih =>
    by_cases hd : digitCh c
    · simp only [takeDigits, hd, if_true] at h
      simp [takeDigits, hd, ih h, List.append_eq]
    · simp [takeDigits, hd]

theorem takeDigits_snd_length (cs : List Char) :
    (takeDigits cs).2.length ≤ cs.length := by
  induction cs with
  | nil => simp [takeDigits]
  | cons c cs ih =>
    by_cases hd : digitCh c
    · simp only [takeDigits, hd, if_true]
      exact le_trans ih (Nat.le_succ _)
    · simp [takeDigits, hd]

theorem takeDigits_append_of_digits (ds rest : List Char)
    (hds : ∀ d ∈ ds, digitCh d) (hr : ∀ h ∈ rest.head?, ¬ digitCh h) :
    takeDigits (ds ++ rest) = (ds, rest) := by
  induction ds with
  | nil =>
    cases rest with
    | nil => simp [takeDigits]
    | cons r rs =>
      have : ¬ digitCh r = true := hr r (by simp)
      simp [takeDigits, this]
  | cons d ds ih =>
    have hd : digitCh d := hds d (by simp)
    have ih2 := ih (fun x hx => hds x (by simp [hx]))
    simp [takeDigits, hd, ih2, List.append_eq]

/-! ## The episode marker expression

Go source (third, current revision of `kourai.go`):
`episodeExpr = regexp.MustCompile("(?i)(s\\d+).?(e\\d+)-?((?:e\\d+)+)*")`.
The matcher below is that expression compiled by hand, with Go's
leftmost-first semantics: greedy `\d+` runs, `.?` preferring to consume
one (non-newline) character, and the trailing star collapsing to a single
iteration whose inner `+` is greedy. -/

/-- One `e\d+` block: an `e`/`E` followed by at least one digit.
Returns the block text and the rest. -/
def eBlock : List Char → Option (List Char × List Char)
  | [] => none
  | c :: cs =>
    if c = 'e' ∨ c = 'E' then
      if (takeDigits cs).1 = [] then none
      else some (c :: (takeDigits cs).1, (takeDigits cs).2)
    else none

theorem eBlock_rest_length {l b r : List Char} (h : eBlock l = some (b, r)) :
    r.length < l.length := by
  cases l with
  | nil => simp [eBlock] at h
  | cons c cs =>
    simp only [eBlock] at h
    by_cases hc : c = 'e' ∨ c = 'E'
    · simp only [hc, if_true] at h
      by_cases hd : (takeDigits cs).1 = []
      · simp [hd] at h
      · simp only [hd, if_false, Option.some.injEq, Prod.mk.injEq] at h
        have := takeDigits_snd_length cs
        have hr : r = (takeDigits cs).2 := h.2.symm
        subst hr
        simp only [List.length_cons]
        omega
    · simp [hc] at h

/-- The block-run recursion with explicit fuel (each block consumes at
least two characters, so fuel `l.length` always suffices). -/
def eBlocksF : Nat → List Char → List Char × List Char
  | 0, l => ([], l)
  | fuel + 1, l =>
    match eBlock l with
    | none => ([], l)
    | some (b, r) => (b ++ (eBlocksF fuel r).1, (eBlocksF fuel r).2)

/-- Maximal run of consecutive `e\d+` blocks (the `((?:e\d+)+)*` tail,
greedy).  Returns the concatenated block text and the rest. -/
def eBlocks (l : List Char) : List Char × List Char :=
  eBlocksF l.length l

/-- Result of matching `episodeExpr` at a fixed position: `gEnd` is the
offset, from the match start, of the end of the last submatch group
(the `end` variable of `EpisodeFromPath`); `id` is the concatenation of
the group texts (the `epid` the source builds); `seasonDs` and `ep1Ds`
are the digit runs of `(s\d+)` and of the first `(e\d+)`. -/
structure EpM where
  gEnd : Nat
  id : List Char
  seasonDs : List Char
  ep1Ds : List Char
  deriving Repr, DecidableEq

/-- Attempt to match `episodeExpr` starting exactly at the head of `l`. -/
def epMatchHere (l : List Char) : Option EpM :=
  match l with
  | [] => none
  | c :: cs =>
    if c = 's' ∨ c = 'S' then
      if (takeDigits cs).1 = [] then none
      else
        -- group 1 matched; `.?` prefers consuming one non-newline char
        epAfterG1 c (takeDigits cs).1 (takeDigits cs).2
    else none
where
  /-- Continue after group 1: `.?(e\d+)-?((?:e\d+)+)*`. -/
  epAfterG1 (s0 : Char) (ds r1 : List Char) : Option EpM :=
    match r1 with
    | x :: r2 =>
      if x ≠ '\n' then
        match eBlock r2 with
        | some (g2, r3) => some (epTail s0 ds 1 g2 r3)
        | none => epNoDot s0 ds (x :: r2)
      else epNoDot s0 ds (x :: r2)
    | [] => epNoDot s0 ds []
  /-- The `.?` matched empty: `(e\d+)` must match directly. -/
  epNoDot (s0 : Char) (ds r1 : List Char) : Option EpM :=
    match eBlock r1 with
    | some (g2, r3) => some (epTail s0 ds 0 g2 r3)
    | none => none
  /-- After group 2: `-?` then the greedy block run; assemble the result. -/
  epTail (s0 : Char) (ds : List Char) (dot : Nat) (g2 r3 : List Char) : EpM :=
    match r3 with
    | '-' :: r4 =>
      if (eBlocks r4).1 = [] then
        { gEnd := 1 + ds.length + dot + g2.length
          id := (s0 :: ds) ++ g2
          seasonDs := ds
          ep1Ds := g2.drop 1 }
      else
        { gEnd := 1 + ds.length + dot + g2.length + 1 + (eBlocks r4).1.length
          id := (s0 :: ds) ++ g2 ++ (eBlocks r4).1
          seasonDs := ds
          ep1Ds := g2.drop 1 }
    | _ =>
      if (eBlocks r3).1 = [] then
        { gEnd := 1 + ds.length + dot + g2.length
          id := (s0 :: ds) ++ g2
          seasonDs := ds
          ep1Ds := g2.drop 1 }
      else
        { gEnd := 1 + ds.length + dot + g2.length + (eBlocks r3).1.length
          id := (s0 :: ds) ++ g2 ++ (eBlocks r3).1
          seasonDs := ds
          ep1Ds := g2.drop 1 }

/-- Leftmost match of `episodeExpr`: scan every start position, first
success wins.  Returns the absolute start offset and the match data. -/
def epFind : List Char → Option (Nat × EpM)
  | [] => none
  | c :: cs =>
    match epMatchHere (c :: cs) with
    | some m => some (0, m)
    | none =>
      match epFind cs with
      | some (i, m) => some (i + 1, m)
      | none => none

/-! ## The date expression

Go source: `dateExpr = regexp.MustCompile("(?:\\b(19|20)\\d{2}\\b(?:-\\d{1,2}-\\d{1,2})?)")`. -/

/-- Word-boundary test for the position after a match: `lastIsWord` is the
word-ness of the last consumed character, the list is the unconsumed rest. -/
def bAfter (lastIsWord : Bool) : List Char → Bool
  | [] => lastIsWord
  | c :: _ => lastIsWord ≠ wordCh c

/-- First `\d{1,2}` of the optional date suffix, which must be followed by
a literal dash (greedy: two digits preferred).  Returns the digits and the
rest after the dash. -/
def dateSufFirst : List Char → Option (List Char × List Char)
  | a :: b :: c :: r =>
    if digitCh a then
      if digitCh b ∧ c = '-' then some ([a, b], r)
      else if b = '-' then some ([a], c :: r)
      else none
    else none
  | [a, b] => if digitCh a ∧ b = '-' then some ([a], []) else none
  | _ => none

/-- Trailing `\d{1,2}` of the date suffix (greedy, nothing follows). -/
def dateSufSecond : List Char → Option (List Char × List Char)
  | a :: b :: r =>
    if digitCh a then
      if digitCh b then some ([a, b], r) else some ([a], b :: r)
    else none
  | [a] => if digitCh a then some ([a], []) else none
  | [] => none

/-- The optional `(?:-\d{1,2}-\d{1,2})?` suffix; `none` means it matched
empty.  Returns the suffix text and the rest. -/
def dateSuffix : List Char → Option (List Char × List Char)
  | '-' :: rest =>
    match dateSufFirst rest with
    | some (d1, r1) =>
      match dateSufSecond r1 with
      | some (d2, r2) => some ('-' :: d1 ++ '-' :: d2, r2)
      | none => none
    | none => none
  | _ => none

/-- Match `dateExpr` at the head of `l`, `prev` being the character just
before the current position (`none` at the string start).  Returns the
matched text. -/
def dateMatchHere (prev : Option Char) (l : List Char) : Option (List Char) :=
  if prev.any wordCh then none
  else
    match l with
    | y1 :: y2 :: y3 :: y4 :: rest =>
      if ((y1 = '1' ∧ y2 = '9') ∨ (y1 = '2' ∧ y2 = '0')) ∧ digitCh y3 ∧ digitCh y4
          ∧ bAfter true rest then
        match dateSuffix rest with
        | some (sfx, _) => some (y1 :: y2 :: y3 :: y4 :: sfx)
        | none => some [y1, y2, y3, y4]
      else none
    | _ => none

/-- Scan for the leftmost `dateExpr` match, carrying the previous
character for the boundary test.  Returns start offset and matched text. -/
def dateFindAux (prev : Option Char) : List Char → Option (Nat × List Char)
  | [] => none
  | c :: cs =>
    match dateMatchHere prev (c :: cs) with
    | some t => some (0, t)
    | none =>
      match dateFindAux (some c) cs with
      | some (i, t) => some (i + 1, t)
      | none => none

/-- `dateExpr.FindStringIndex`-style search: leftmost match, returning
(start, matched text); the end index is start + text length. -/
def dateFind (l : List Char) : Option (Nat × List Char) :=
  dateFindAux none l

/-! ## The sentinel expression

Go source: `sentinelExpr = regexp.MustCompile("(?i)\\b(\\d{3,4}[ip]|limited|unrated|web(-dl|rip)|bluray|10bit|pal|re(rip|pack)|dvdrip|a\\.k\\.a\\.?|aka)\\b")`.
Only the match start is ever used by the callers. -/

/-- The `[ip]` class (case-insensitive). -/
def ipCh (c : Char) : Bool :=
  c = 'i' ∨ c = 'I' ∨ c = 'p' ∨ c = 'P'

/-- Strip a literal pattern case-insensitively; returns the rest. -/
def stripCI : List Char → List Char → Option (List Char)
  | [], l => some l
  | _ :: _, [] => none
  | p :: ps, c :: cs => if ciEq p c then stripCI ps cs else none

/-- Alternative `\d{3,4}[ip]` (greedy on the digit count), returning the
consumed length and the rest. -/
def sentAlt1 : List Char → Option (Nat × List Char)
  | d1 :: d2 :: d3 :: rest =>
    if digitCh d1 ∧ digitCh d2 ∧ digitCh d3 then
      match rest with
      | c4 :: rest2 =>
        if digitCh c4 then
          match rest2 with
          | c5 :: rest3 => if ipCh c5 then some (5, rest3) else none
          | [] => none
        else if ipCh c4 then some (4, rest2) else none
      | [] => none
    else none
  | _ => none

/-- A case-insensitive literal alternative followed by the trailing `\b`
(all literals end in a word character). -/
def sentLit (pat l : List Char) : Option (Nat × List Char) :=
  match stripCI pat l with
  | some rest => if bAfter true rest then some (pat.length, rest) else none
  | none => none

/-- The `a\.k\.a\.?` alternative: greedy on the optional final dot, with
the appropriate boundary test for each shape. -/
def sentAka (l : List Char) : Option (Nat × List Char) :=
  match stripCI ['a', '.', 'k', '.', 'a'] l with
  | some rest =>
    match rest with
    | '.' :: r2 =>
      if bAfter false r2 then some (6, r2)
      else if bAfter true rest then some (5, rest) else none
    | _ => if bAfter true rest then some (5, rest) else none
  | none => none

/-- Match `sentinelExpr` at the head of `l` (alternatives in source
order); returns the consumed length. -/
def sentMatchHere (prev : Option Char) (l : List Char) : Option Nat :=
  if prev.any wordCh then none
  else
    match sentAlt1 l with
    | some (n, rest) => if bAfter true rest then some n else sentRest l
    | none => sentRest l
where
  sentRest (l : List Char) : Option Nat :=
    match sentLit ['l', 'i', 'm', 'i', 't', 'e', 'd'] l with
    | some (n, _) => some n
    | none =>
    match sentLit ['u', 'n', 'r', 'a', 't', 'e', 'd'] l with
    | some (n, _) => some n
    | none =>
    match sentLit ['w', 'e', 'b', '-', 'd', 'l'] l with
    | some (n, _) => some n
    | none =>
    match sentLit ['w', 'e', 'b', 'r', 'i', 'p'] l with
    | some (n, _) => some n
    | none =>
    match sentLit ['b', 'l', 'u', 'r', 'a', 'y'] l with
    | some (n, _) => some n
    | none =>
    match sentLit ['1', '0', 'b', 'i', 't'] l with
    | some (n, _) => some n
    | none =>
    match sentLit ['p', 'a', 'l'] l with
    | some (n, _) => some n
    | none =>
    match sentLit ['r', 'e', 'r', 'i', 'p'] l with
    | some (n, _) => some n
    | none =>
    match sentLit ['r', 'e', 'p', 'a', 'c', 'k'] l with
    | some (n, _) => some n
    | none =>
    match sentLit ['d', 'v', 'd', 'r', 'i', 'p'] l with
    | some (n, _) => some n
    | none =>
    match sentAka l with
    | some (n, _) => some n
    | none =>
    match sentLit ['a', 'k', 'a'] l with
    | some (n, _) => some n
    | none => none

/-- Leftmost `sentinelExpr` match: only the start offset is returned, as
only `loc[0]` is consumed by the source. -/
def sentFindAux (prev : Option Char) : List Char → Option Nat
  | [] => none
  | c :: cs =>
    match sentMatchHere prev (c :: cs) with
    | some _ => some 0
    | none =>
      match sentFindAux (some c) cs with
      | some i => some (i + 1)
      | none => none

/-- `sentinelExpr.FindStringIndex`-style search for the match start. -/
def sentinelFind (l : List Char) : Option Nat :=
  sentFindAux none l

/-! ## `seasonExpr` and `strconv.Atoi` -/

/-- Leftmost match of `seasonExpr = (?i)s(\d+)` (the full match text). -/
def seasonFindStr : List Char → Option (List Char)
  | [] => none
  | c :: cs =>
    if (c = 's' ∨ c = 'S') ∧ (takeDigits cs).1 ≠ [] then some (c :: (takeDigits cs).1)
    else seasonFindStr cs

/-- Numeric value of a digit string. -/
def digitsVal : List Char → Nat :=
  List.foldl (fun acc c => 10 * acc + (c.toNat - 48)) 0

/-- Go `strconv.Atoi` on the inputs this package produces: all of them are
either pure digit runs or contain a non-digit (on which Atoi errors).
Overflow past `MaxInt64` is an error (Go returns ErrRange, and every
caller only checks `err != nil`). -/
def goAtoi (l : List Char) : Option Int :=
  if l = [] then none
  else if l.all digitCh then
    if digitsVal l ≤ 9223372036854775807 then some (digitsVal l) else none
  else none

/-! ## Go strings / path/filepath helpers (specialised to their uses) -/

/-- `strings.Split(s, sep)` for a one-character separator. -/
def splitCh (sep : Char) : List Char → List (List Char)
  | [] => [[]]
  | x :: xs =>
    match splitCh sep xs with
    | [] => if x = sep then [[], []] else [[x]]
    | h :: t => if x = sep then [] :: h :: t else (x :: h) :: t

/-- `strings.ReplaceAll` for one-character old/new strings. -/
def replaceCh (old new : Char) (l : List Char) : List Char :=
  l.map (fun c => if c = old then new else c)

/-- `strings.Trim(s, cutset)`: strip leading and trailing cutset runs. -/
def trimBoth (cutset : List Char) (l : List Char) : List Char :=
  ((l.dropWhile (cutset.contains ·)).reverse.dropWhile (cutset.contains ·)).reverse

/-- `strings.TrimSuffix(s, "-")`. -/
def trimSufDash (l : List Char) : List Char :=
  if l.getLast? = some '-' then l.dropLast else l

/-- `strings.Cut(s, "-")`: the part before the first dash (only the first
component is consumed by the source). -/
def cutDashFst (l : List Char) : List Char :=
  l.takeWhile (· ≠ '-')

/-- `strings.ToLower` (ASCII). -/
def toLowerL (l : List Char) : List Char := l.map lowCh

/-- `strings.ToUpper` (ASCII). -/
def toUpperL (l : List Char) : List Char := l.map upCh

/-- `strings.Count(s, " ")` (single-character substring). -/
def countSpaces (l : List Char) : Nat :=
  (l.filter (· = ' ')).length

/-- `strings.Join` / `strings.Split(s, " ")` inverse. -/
def joinSpace : List (List Char) → List Char
  | [] => []
  | [w] => w
  | w :: ws => w ++ ' ' :: joinSpace ws

/-- `filepath.Split(path)`: directory part (with trailing separator) and
file part after the last `/`. -/
def splitPath (l : List Char) : List Char × List Char :=
  (l.take (l.length - (l.reverse.takeWhile (· ≠ '/')).length),
   l.drop (l.length - (l.reverse.takeWhile (· ≠ '/')).length))

theorem splitPath_append (l : List Char) :
    (splitPath l).1 ++ (splitPath l).2 = l := by
  simp [splitPath]

/-- `filepath.Ext`-based split of a file name (no separators inside) into
base name and extension: the extension starts at the last dot, or is
empty when there is none. -/
def goExtSplit (file : List Char) : List Char × List Char :=
  let tl := (file.reverse.takeWhile (· ≠ '.')).length
  if tl = file.length then (file, [])
  else (file.take (file.length - tl - 1), file.drop (file.length - tl - 1))

theorem goExtSplit_append (file : List Char) :
    (goExtSplit file).1 ++ (goExtSplit file).2 = file := by
  simp only [goExtSplit]
  split <;> simp

/-- `filepath.Base` restricted to well-formed slash paths: empty input
gives `.`, otherwise trailing slashes are stripped and the last component
is returned (`/` when nothing remains). -/
def goBase (l : List Char) : List Char :=
  if l = [] then ['.']
  else
    let stripped := (l.reverse.dropWhile (· = '/')).reverse
    if stripped = [] then ['/']
    else (stripped.reverse.takeWhile (· ≠ '/')).reverse

/-! ## Title normalisation (`makeTitle`)

`makeTitle` replaces dots and underscores with spaces, trims `-` and
space, and (unless disabled by the options) applies
`cases.Title(language.AmericanEnglish, cases.NoLower)`.  The caser is
modelled at ASCII: the first character of every word is upper-cased, a
word break happening at the start and after any non-alphanumeric
character except a word-internal apostrophe. -/

/-- ASCII letter test. -/
def letterCh (c : Char) : Bool :=
  ('a' ≤ c ∧ c ≤ 'z') ∨ ('A' ≤ c ∧ c ≤ 'Z')

/-- ASCII alphanumeric test. -/
def alnumCh (c : Char) : Bool :=
  letterCh c ∨ digitCh c

/-- The apostrophe character (U+0027). -/
def aposCh : Char := Char.ofNat 39

/-- Title casing at ASCII, tracking the two previous characters so that a
word-internal apostrophe (as in a contraction) does not start a new word. -/
def titleCaseAux (p2 p1 : Option Char) : List Char → List Char
  | [] => []
  | c :: cs =>
    let wordStart :=
      (match p1 with
       | none => true
       | some p =>
         if alnumCh p then false
         else if p = aposCh then ¬ (p2.any letterCh) else true)
    (if wordStart then upCh c else c) :: titleCaseAux p1 (some c) cs

/-- The `cases.Title(AmericanEnglish, NoLower)` caser at ASCII. -/
def titleCaser (l : List Char) : List Char :=
  titleCaseAux none none l

theorem titleCaser_length (l : List Char) :
    (titleCaser l).length = l.length := by
  suffices h : ∀ p2 p1 m, (titleCaseAux p2 p1 m).length = m.length from h none none l
  intro p2 p1 m
  induction m generalizing p2 p1 with
  | nil => simp [titleCaseAux]
  | cons c cs ih => simp [titleCaseAux, ih]

/-- Classifier options: the only field the classifier reads is
`SkipTitleCaser` (package-level `options`). -/
structure GOpts where
  skipTitleCaser : Bool := false
  deriving Repr, DecidableEq

/-- `makeTitle` of the current `kourai.go` revision. -/
def makeTitle (o : GOpts) (s : List Char) : List Char :=
  let t := replaceCh '.' ' ' s
  let t := trimBoth ['-', ' '] (replaceCh '_' ' ' t)
  if o.skipTitleCaser then t else titleCaser t

theorem titleCaser_eq_nil_iff (l : List Char) : titleCaser l = [] ↔ l = [] := by
  constructor
  · intro h
    have := titleCaser_length l
    rw [h] at this
    exact List.length_eq_zero.mp this.symm
  · intro h
    subst h
    rfl

theorem makeTitle_eq_nil_iff (o : GOpts) (s : List Char) :
    makeTitle o s = [] ↔ trimBoth ['-', ' '] (replaceCh '_' ' ' (replaceCh '.' ' ' s)) = [] := by
  unfold makeTitle
  by_cases h : o.skipTitleCaser = true
  · simp [h]
  · simp [h, titleCaser_eq_nil_iff]

/-! ## The classifier entities

`episode` and `movie` of the current `kourai.go` revision, together with
`EpisodeFromPath`, `MovieFromPath` and `NewLinkable`.  Collected errors
are modelled as a list of tags; `errors.Join` returns nil exactly when
the list is empty. -/

/-- The error values the classifier can produce. -/
inductive KErr where
  | noEpisodeID
  | seasonParse
  | episodeParse
  | yearParse
  | invalidMovie
  deriving Repr, DecidableEq

/-- The `episode` struct. -/
structure EpisodeT where
  series : List Char := []
  title : List Char := []
  id : List Char := []
  season : Int := 0
  episode : Int := 0
  year : Int := 0
  path : List Char := []
  tmdbID : Int := 0
  deriving Repr, DecidableEq

/-- The `movie` struct (current revision: integer year). -/
structure MovieT where
  title : List Char := []
  year : Int := 0
  path : List Char := []
  tmdbID : Int := 0
  deriving Repr, DecidableEq

/-- `oldestMovieYear`. -/
def oldestMovieYear : Int := 1888

/-- `movie.YearValid()`. -/
def yearValid (m : MovieT) : Bool :=
  oldestMovieYear ≤ m.year

/-- `EpisodeFromPath` of the current revision. -/
def EpisodeFromPath (o : GOpts) (path : List Char) : EpisodeT × List KErr :=
  let file := (splitPath path).2
  let basename := (goExtSplit file).1
  match epFind basename with
  | none => ({ path := path }, [KErr.noEpisodeID])
  | some (start, m) =>
    let t0 := start + m.gEnd + 1
    let series1 := if start > 0 then start - 1 else 0
    let seasonRes :=
      match seasonFindStr m.id with
      | some sm =>
        (match goAtoi (sm.drop 1) with
         | some v => (v, ([] : List KErr))
         | none => (0, [KErr.seasonParse]))
      | none => (0, [KErr.seasonParse])  -- unreachable: the id starts with s + digit
    let eps := splitCh 'e' (toLowerL m.id)
    let episodeRes :=
      match eps.drop 1 with
      | e1 :: _ =>
        (match goAtoi (trimSufDash e1) with
         | some v => (v, ([] : List KErr))
         | none => (0, [KErr.episodeParse]))
      | [] => (0, [KErr.episodeParse])  -- unreachable: the id always contains an e
    let dateRes :=
      match dateFind basename with
      | some (d0, dtext) =>
        (match goAtoi (cutDashFst dtext) with
         | some v => (v, ([] : List KErr), some d0)
         | none => (0, [KErr.yearParse], some d0))
      | none => (0, ([] : List KErr), none)
    let series1' :=
      match dateRes.2.2 with
      | some d0 => if d0 < series1 ∧ d0 - 1 > 0 then d0 - 1 else series1
      | none => series1
    let t1 := basename.length
    let t1' :=
      match sentinelFind basename with
      | some s0 =>
        if s0 < t1 then
          if s0 > t0 then s0 - 1
          else if s0 = t0 then t0
          else t1
        else t1
      | none => t1
    let titleStr :=
      if t0 ≤ t1' then makeTitle o ((basename.drop t0).take (t1' - t0)) else []
    ({ series := makeTitle o (basename.take series1')
       title := titleStr
       id := m.id
       season := seasonRes.1
       episode := episodeRes.1
       year := dateRes.1
       path := path },
     seasonRes.2 ++ episodeRes.2 ++ dateRes.2.1)

/-- One iteration of the `MovieFromPath` candidate loop (`basename`, then
the parent directory).  A date-parse failure or an implausible year makes
the iteration `continue`, leaving the movie unchanged. -/
def movieCand (o : GOpts) (mov : MovieT) (i : List Char) : MovieT :=
  match dateFind i with
  | some (d0, dtext) =>
    match goAtoi dtext with
    | none => mov
    | some y =>
      if y < oldestMovieYear then mov
      else
        movieCandTitle o { mov with year := y }
          i (if d0 > 0 ∧ d0 < i.length then d0 - 1 else i.length)
  | none => movieCandTitle o mov i i.length
where
  /-- The sentinel shortening and title update of one iteration. -/
  movieCandTitle (o : GOpts) (mov : MovieT) (i : List Char) (endV : Nat) : MovieT :=
    let endV' :=
      match sentinelFind i with
      | some s0 => if s0 > 0 ∧ s0 < endV then s0 - 1 else endV
      | none => endV
    let t := makeTitle o (i.take endV')
    if t.length > mov.title.length then { mov with title := t } else mov

/-- `MovieFromPath` of the current revision: only an empty title is an
error; the year is optional. -/
def MovieFromPath (o : GOpts) (path : List Char) : MovieT × List KErr :=
  let dir := goBase (splitPath path).1
  let basename := (goExtSplit (splitPath path).2).1
  let m1 := movieCand o { path := path } basename
  let m2 := if m1.title ≠ [] ∧ yearValid m1 then m1 else movieCand o m1 dir
  (m2, if m2.title = [] then [KErr.invalidMovie] else [])

/-- The `Linkable` interface as a closed variant. -/
inductive LinkableT where
  | ep (e : EpisodeT)
  | mov (m : MovieT)
  deriving Repr, DecidableEq

/-- `NewLinkable`: the episode expression is tried against the whole
path; on a match the path is classified as an episode, otherwise as a
movie. -/
def NewLinkable (o : GOpts) (path : List Char) : LinkableT × List KErr :=
  match epFind path with
  | some _ =>
    let r := EpisodeFromPath o path
    (.ep r.1, r.2)
  | none =>
    let r := MovieFromPath o path
    (.mov r.1, r.2)

/-! ## Link planning (`Target`) -/

/-- The season folder of `episode.Target`: `Specials` for season 0,
otherwise `Season <n>`. -/
def seasonFolder (e : EpisodeT) : List Char :=
  if e.season = 0 then "Specials".data
  else "Season ".data ++ (toString e.season).data

/-- The episode-ID rendering of `episode.Target`: multi-episode ids are
rendered as `S..E..-E..`, otherwise the id is upper-cased. -/
def epIdDisp (e : EpisodeT) : List Char :=
  let eps := splitCh 'e' (toLowerL e.id)
  if eps.length > 2 then
    toUpperL (eps.headD [] ++ 'e' :: trimBoth ['-'] (eps.getD 1 [])
      ++ '-' :: 'e' :: trimBoth ['-'] (eps.getLastD []))
  else toUpperL e.id

/-- The series rendering of `episode.Target`: the year is appended in
parentheses when set. -/
def seriesDisp (e : EpisodeT) : List Char :=
  if e.year ≠ 0 then e.series ++ " (".data ++ (toString e.year).data ++ ")".data
  else e.series

/-- `episode.Target()`. -/
def epTarget (e : EpisodeT) : List Char :=
  let dir := "tv/".data ++ seriesDisp e ++ "/".data ++ seasonFolder e
  let ext := (goExtSplit (splitPath e.path).2).2
  if e.title ≠ [] then
    dir ++ "/".data ++ seriesDisp e ++ " - ".data ++ epIdDisp e
      ++ " - ".data ++ e.title ++ ext
  else dir ++ "/".data ++ seriesDisp e ++ " - ".data ++ epIdDisp e ++ ext

/-- `movie.Target()`. -/
def movTarget (m : MovieT) : List Char :=
  let file := (splitPath m.path).2
  if yearValid m then
    "movies/".data ++ m.title ++ " (".data ++ (toString m.year).data
      ++ ")".data ++ "/".data ++ file
  else "movies/".data ++ m.title ++ "/".data ++ file

/-! ## Levenshtein distance and `BestMatchIndex`

`BestMatchIndex` collects the distance of every candidate, records
`dMap[d] = i` (overwriting earlier indices on equal distances), sorts the
distances and returns `dMap[dists[0]]`.  On an empty candidate list
`dists[0]` panics, modelled as `none`.  A missing map key would yield
Go's zero value 0 (it cannot happen, as the minimum is always a key). -/

/-- The textbook Levenshtein recurrence with explicit fuel (so that the
kernel can evaluate it); the fuel is sufficient whenever it is at least
the sum of the lengths. -/
def levF : Nat → List Char → List Char → Nat
  | _, [], ys => ys.length
  | _, x :: xs, [] => (x :: xs).length
  | 0, _ :: _, _ :: _ => 0
  | f + 1, x :: xs, y :: ys =>
    if x = y then levF f xs ys
    else 1 + min (levF f xs ys) (min (levF f (x :: xs) ys) (levF f xs (y :: ys)))

/-- `levenshtein.ComputeDistance` (unit-cost edit distance over runes). -/
def lev (xs ys : List Char) : Nat :=
  levF (xs.length + ys.length) xs ys

/-- Insert into a `≤`-sorted list of naturals. -/
def insertSorted (x : Nat) : List Nat → List Nat
  | [] => [x]
  | y :: ys => if x ≤ y then x :: y :: ys else y :: insertSorted x ys

/-- Sorting ascending; on integers any correct sort computes the same
list as Go's `sort.IntSlice.Sort`. -/
def sortNat (l : List Nat) : List Nat :=
  l.foldr insertSorted []

/-- Map update with overwrite (`dMap[d] = i`). -/
def updAssoc (m : List (Nat × Nat)) (k v : Nat) : List (Nat × Nat) :=
  match m with
  | [] => [(k, v)]
  | (k2, v2) :: rest =>
    if k2 = k then (k, v) :: rest else (k2, v2) :: updAssoc rest k v

/-- Map lookup. -/
def lookupAssoc (m : List (Nat × Nat)) (k : Nat) : Option Nat :=
  match m with
  | [] => none
  | (k2, v2) :: rest => if k2 = k then some v2 else lookupAssoc rest k

/-- The state built by the `BestMatchIndex` loop: the distance slice, the
distance-to-index map, and the running index. -/
def bmState (s : List Char) (c : List (List Char)) :
    List Nat × List (Nat × Nat) × Nat :=
  c.foldl
    (fun st j => (st.1 ++ [lev s j], updAssoc st.2.1 (lev s j) st.2.2, st.2.2 + 1))
    ([], [], 0)

/-- `BestMatchIndex`; `none` models the index-out-of-range panic on an
empty candidate list. -/
def bestMatchIdx (s : List Char) (c : List (List Char)) : Option Nat :=
  match sortNat (bmState s c).1 with
  | [] => none
  | d :: _ => some ((lookupAssoc (bmState s c).2.1 d).getD 0)

/-! ## The movie / TV matching layer of `part_001` -/

/-- `tmdb.MovieShort` (the fields the matcher reads). -/
structure MovieShort where
  Title : List Char := []
  ReleaseDate : List Char := []
  ID : Int := 0
  deriving Repr, DecidableEq, Inhabited

/-- The `Media` struct (the fields the lookup layer reads; the Go field
`Type` is spelled `mType` as `Type` is reserved here). -/
structure MediaT where
  Path : List Char := []
  mType : Int := 0
  Date : List Char := []
  Title : List Char := []
  tmdbID : Int := 0
  deriving Repr, DecidableEq, Inhabited

/-- `DateMatch`: exact match or equal year prefixes. -/
def DateMatch (d1 d2 : List Char) : Bool :=
  d1 = d2 ∨ cutDashFst d1 = cutDashFst d2

/-- Outcome of `MatchMovieSearch`: a selected candidate or an error. -/
inductive MatchRes where
  | found (r : MovieShort)
  | err
  deriving Repr, DecidableEq

/-- `MatchMovieSearch` of `part_001`: with more than one candidate, the
year filter is applied; with more than one left, `BestMatchIndex` is
consulted over the names of the *full* result list.  The outer `none`
models a panic. -/
def MatchMovieSearch (m : MediaT) (results : List MovieShort) : Option MatchRes :=
  match results with
  | [] => some .err
  | [r] => some (.found r)
  | _ =>
    match results.filter (fun mv => DateMatch m.Date mv.ReleaseDate) with
    | [] => some .err
    | [r] => some (.found r)
    | _ =>
      match bestMatchIdx m.Title (results.map (·.Title)) with
      | none => none
      | some i =>
        match results.get? i with
        | some r => some (.found r)
        | none => none

/-- A cached TV lookup record (`lookupItems` of `part_001`). -/
structure LookupItems where
  title : List Char := []
  id : Int := 0
  deriving Repr, DecidableEq, Inhabited

/-- The process-wide TV cache, an association list keyed by the raw
title. -/
def TVCache := List (List Char × LookupItems)

/-- Cache read. -/
def cacheLoad (c : TVCache) (k : List Char) : Option LookupItems :=
  match c with
  | [] => none
  | (k2, v) :: rest => if k2 = k then some v else cacheLoad rest k

/-- Cache write (map assignment semantics: overwrite or extend). -/
def cacheStore (c : TVCache) (k : List Char) (v : LookupItems) : TVCache :=
  match c with
  | [] => [(k, v)]
  | (k2, v2) :: rest =>
    if k2 = k then (k, v) :: rest else (k2, v2) :: cacheStore rest k v

/-- A TV search result (the fields `lookupTV` reads). -/
structure TVRes where
  Name : List Char := []
  ID : Int := 0
  deriving Repr, DecidableEq, Inhabited

/-- `lookupTV` of `part_001`, with the remote catalog as a deterministic
oracle: `none` is a transport error, `some l` the result list.  The return
carries the updated media, the updated cache, whether a network query was
performed, and whether the lookup failed; the outer `none` models a
panic. -/
def lookupTV (net : List Char → Option (List TVRes)) (cache : TVCache)
    (m : MediaT) : Option (MediaT × TVCache × Bool × Bool) :=
  match cacheLoad cache m.Title with
  | some l => some ({ m with Title := l.title, tmdbID := l.id }, cache, false, false)
  | none =>
    match net m.Title with
    | none => some (m, cache, true, true)
    | some [] => some (m, cache, true, true)
    | some [r] =>
      some ({ m with Title := r.Name, tmdbID := r.ID },
        cacheStore cache m.Title { title := r.Name, id := r.ID }, true, false)
    | some rs =>
      match bestMatchIdx m.Title (rs.map (·.Name)) with
      | none => none
      | some i =>
        match (rs.map (·.Name)).get? i, rs.get? i with
        | some nm, some r =>
          some ({ m with Title := nm, tmdbID := r.ID },
            cacheStore cache m.Title { title := nm, id := r.ID }, true, false)
        | _, _ => none

/-- `movieDateMatch`: equal dates, or the parsed year within +1 of the
release year. -/
def movieDateMatch (parsedDate date : List Char) : Bool :=
  if parsedDate = date then true
  else
    match goAtoi (cutDashFst parsedDate), goAtoi (cutDashFst date) with
    | some py, some dy => py = dy ∨ py + 1 = dy
    | _, _ => false

/-- `titlePop`: drop the last space-separated word.  (The error branch of
the source requires a zero-length `strings.Split` result, which cannot
occur.) -/
def titlePop (t : List Char) : List Char :=
  joinSpace (splitCh ' ' t).dropLast

/-- The retry loop of `lookupMovie` of `part_001`; the fuel is the number
of remaining iterations (`limit + 1` at the start).  The Bool records
whether the lookup failed; the outer `none` models a panic. -/
def lookupMovieLoop (net : List Char → Option (List MovieShort)) (m : MediaT) :
    Nat → List Char → Option (MediaT × Bool)
  | 0, _ => some (m, false)
  | fuel + 1, title =>
    if title = [] then some (m, true)
    else
      match net title with
      | none => some (m, true)
      | some [] => lookupMovieLoop net m fuel (titlePop title)
      | some [r] => some ({ m with Title := r.Title }, false)
      | some rs =>
        match rs.filter (fun mv => movieDateMatch m.Date mv.ReleaseDate) with
        | [] => lookupMovieLoop net m fuel (titlePop title)
        | [r] => some ({ m with Title := r.Title }, false)
        | _ =>
          match bestMatchIdx title (rs.map (·.Title)) with
          | none => none
          | some i =>
            match rs.get? i with
            | some r => some ({ m with Title := r.Title }, false)
            | none => none

/-- `lookupMovie` of `part_001`: the word-popping retry loop with budget
`(strings.Count(title, " ") + 1) / 3`. -/
def lookupMovie (net : List Char → Option (List MovieShort)) (m : MediaT) :
    Option (MediaT × Bool) :=
  lookupMovieLoop net m ((countSpaces m.Title + 1) / 3 + 1) m.Title

/-! ## The narrowing lookup of the current revision (`tmdbLookup`) -/

/-- A search-movie result of the in-repo TMDB client (the fields the
lookup reads: title and release year). -/
structure MovieRes where
  Title : List Char := []
  ReleaseYear : Int := 0
  deriving Repr, DecidableEq, Inhabited

/-- `titleVariants(t, max)`: the first `min max (number of words)` texts
obtained by dropping 0, 1, 2, … trailing words. -/
def titleVariants (t : List Char) (max : Nat) : List (List Char) :=
  (List.range (min max (splitCh ' ' t).length)).map
    (fun i => joinSpace ((splitCh ' ' t).take ((splitCh ' ' t).length - i)))

/-- The variant loop of the movie branch of `tmdbLookup`: each variant is
queried in turn (`none` = error or empty result set, logged and skipped);
the first success sets the canonical title (and the year when the parsed
one is invalid) and stops.  The returned list is the sequence of queried
variants.  The oracle depends only on the title: the year option passed
by the source is constant across the loop. -/
def tmdbLookupMovieLoop (net : List Char → Option MovieRes) (v : MovieT) :
    List (List Char) → MovieT × List (List Char)
  | [] => (v, [])
  | t :: rest =>
    match net t with
    | none =>
      ((tmdbLookupMovieLoop net v rest).1, t :: (tmdbLookupMovieLoop net v rest).2)
    | some res =>
      (if yearValid { v with title := res.Title } then { v with title := res.Title }
       else { v with title := res.Title, year := res.ReleaseYear }, [t])

/-- The movie branch of `tmdbLookup` of the current revision: variants
with budget `strings.Count(title, " ")/2 + 1`. -/
def tmdbLookupMovie (net : List Char → Option MovieRes) (v : MovieT) :
    MovieT × List (List Char) :=
  tmdbLookupMovieLoop net v (titleVariants v.title (countSpaces v.title / 2 + 1))

/-! ## Filesystem model and `Link.Create`

The filesystem surface is the external collaborator of §6: `os.Stat`,
`os.MkdirAll` and `os.Link` are modelled over a state of existing
directory and regular-file paths (canonical slash-separated paths, no
`.`/`..`/doubled separators).  `Link.Create` itself is translated from
the source. -/

/-- The filesystem state: the existing directory paths and the existing
regular-file paths. -/
structure FS where
  dirs : List (List Char) := []
  files : List (List Char) := []
  deriving Repr, DecidableEq

/-- `os.Stat` succeeds exactly on an existing path; `Link.Exists()` is
`!os.IsNotExist(err)` of that stat. -/
def fsExists (fs : FS) (p : List Char) : Prop :=
  p ∈ fs.dirs ∨ p ∈ fs.files

instance (fs : FS) (p : List Char) : Decidable (fsExists fs p) := by
  unfold fsExists
  infer_instance

/-- `filepath.Dir` on canonical paths: everything before the last
separator. -/
def dirOf (p : List Char) : List Char :=
  joinSlash (splitCh '/' p).dropLast
where
  /-- Join path components with `/`. -/
  joinSlash : List (List Char) → List Char
    | [] => []
    | [w] => w
    | w :: ws => w ++ '/' :: joinSlash ws

/-- All ancestor paths of `p` (including `p`), shortest first. -/
def prefixPaths (p : List Char) : List (List Char) :=
  (List.range (splitCh '/' p).length).map
    (fun i => dirOf.joinSlash ((splitCh '/' p).take (i + 1)))

/-- `os.MkdirAll`: create every missing ancestor directory; fails when an
existing regular file blocks an ancestor. -/
def mkdirAll (fs : FS) (p : List Char) : Option FS :=
  if ∃ q ∈ prefixPaths p, q ∈ fs.files then none
  else some { fs with dirs := fs.dirs ++ (prefixPaths p).filter (fun q => q ∉ fs.dirs) }

/-- `os.Link src target`: requires an existing source file and a fresh
target; adds the target as a regular file (a new hard link). -/
def osLink (fs : FS) (src target : List Char) : Option FS :=
  if src ∈ fs.files ∧ ¬ fsExists fs target then
    some { fs with files := target :: fs.files }
  else none

/-- A `Link` record. -/
structure LinkT where
  Src : List Char := []
  Target : List Char := []
  deriving Repr, DecidableEq

/-- What `Link.Create` did (it only prints; the distinction mirrors the
branch that was taken). -/
inductive CreateRes where
  | existed   -- "target already exists": reported, not an error
  | ok
  | mkdirErr
  | linkErr
  deriving Repr, DecidableEq

/-- `Link.Create`: no-op when the target exists, otherwise create the
missing parents of the target and hard-link source to target. -/
def linkCreate (fs : FS) (l : LinkT) : FS × CreateRes :=
  if fsExists fs l.Target then (fs, .existed)
  else
    match mkdirAll fs (dirOf l.Target) with
    | none => (fs, .mkdirErr)
    | some fs1 =>
      match osLink fs1 l.Src l.Target with
      | none => (fs1, .linkErr)
      | some fs2 => (fs2, .ok)

/-! ## The discovery walk (`findFiles` of the current revision)

`filepath.WalkDir` visits the tree in traversal order.  A directory whose
metadata any filter excludes makes the callback return `fs.SkipDir`, so
none of its descendants are visited.  A regular file is emitted iff it
passes every filter and classifies.  The claims are about membership of
the emitted set, which the fan-out concurrency does not change, so the
emitted paths are collected in a list.  Paths are component lists (their
Go form is the `/`-join). -/

/-- File metadata as the filters see it (`fs.FileInfo`): the base name,
the modification time and the directory bit. -/
structure FInfo where
  name : List Char := []
  modTime : Int := 0
  isDir : Bool := false
  deriving Repr, DecidableEq

/-- A file tree: the walked portion of the filesystem. -/
inductive FTree where
  | file (info : FInfo)
  | dir (info : FInfo) (children : List FTree)

/-- The metadata of a node. -/
def FTree.info : FTree → FInfo
  | .file i => i
  | .dir i _ => i

/-- A file filter, as the `fileFilter` interface: an exclusion predicate
over metadata. -/
def FileFilter := FInfo → Bool

mutual
/-- The walk.  `pfx` is the component path of the parent; a node's own
path appends its base name.  An excluded directory contributes nothing
(`fs.SkipDir`); an emitted file must pass every filter and classify
without error. -/
def walkTree (o : GOpts) (fls : List FileFilter) (pfx : List (List Char)) :
    FTree → List (List (List Char))
  | .file info =>
    if fls.any (fun fl => fl info) then []
    else
      if (NewLinkable o (dirOf.joinSlash (pfx ++ [info.name]))).2 = [] then
        [pfx ++ [info.name]]
      else []
  | .dir info children =>
    if fls.any (fun fl => fl info) then []
    else walkList o fls (pfx ++ [info.name]) children

/-- The sibling fold of the walk. -/
def walkList (o : GOpts) (fls : List FileFilter) (pfx : List (List Char)) :
    List FTree → List (List (List Char))
  | [] => []
  | t :: ts => walkTree o fls pfx t ++ walkList o fls pfx ts
end

mutual
/-- All descendant file paths of a node, ignoring filters. -/
def allFiles (pfx : List (List Char)) : FTree → List (List (List Char))
  | .file info => [pfx ++ [info.name]]
  | .dir info children => allFilesList (pfx ++ [info.name]) children

/-- The sibling fold of `allFiles`. -/
def allFilesList (pfx : List (List Char)) : List FTree → List (List (List Char))
  | [] => []
  | t :: ts => allFiles pfx t ++ allFilesList pfx ts
end

/-- Navigation to a subtree by child indices, also returning the parent
component path of the subtree. -/
def subtreeAt (pfx : List (List Char)) (t : FTree) :
    List Nat → Option (List (List Char) × FTree)
  | [] => some (pfx, t)
  | i :: rest =>
    match t with
    | .file _ => none
    | .dir info children =>
      match children.get? i with
      | some c => subtreeAt (pfx ++ [info.name]) c rest
      | none => none

/-- The directory bit of a node. -/
def FTree.isDir : FTree → Bool
  | .file _ => false
  | .dir _ _ => true

/-- Distinctness of a name list. -/
def namesDistinct : List (List Char) → Bool
  | [] => true
  | n :: ns => decide (n ∉ ns) && namesDistinct ns

mutual
/-- Well-formed trees: sibling names are distinct (as on a real
filesystem). -/
def FTree.wfB : FTree → Bool
  | .file _ => true
  | .dir _ children =>
    namesDistinct (children.map (fun c => c.info.name)) && FTree.wfListB children

/-- Well-formedness of a sibling list. -/
def FTree.wfListB : List FTree → Bool
  | [] => true
  | c :: cs => c.wfB && FTree.wfListB cs
end

/-! ## Characterisation of `BestMatchIndex` -/

theorem lookupAssoc_updAssoc (m : List (Nat × Nat)) (k v k2 : Nat) :
    lookupAssoc (updAssoc m k v) k2 = if k2 = k then some v else lookupAssoc m k2 := by
  induction m with
  | nil =>
    simp only [updAssoc, lookupAssoc]
    by_cases h : k = k2
    · subst h; simp
    · simp [h, Ne.symm h]
  | cons p rest ih =>
    obtain ⟨ka, va⟩ := p
    simp only [updAssoc]
    by_cases hk : ka = k
    · subst hk
      simp only [if_true, lookupAssoc]
      by_cases h2 : ka = k2
      · subst h2; simp
      · simp [h2, Ne.symm h2]
    · simp only [hk, if_false, lookupAssoc, ih]
      by_cases hA : ka = k2
      · subst hA
        simp [hk, Ne.symm hk]
      · simp [hA]

/-- The index of the last occurrence of a value in a list. -/
def lastIdxWith : List Nat → Nat → Option Nat
  | [], _ => none
  | d :: ds, k =>
    match lastIdxWith ds k with
    | some j => some (j + 1)
    | none => if d = k then some 0 else none

theorem lastIdxWith_none_of_not_mem (ds : List Nat) (k : Nat) (h : k ∉ ds) :
    lastIdxWith ds k = none := by
  induction ds with
  | nil => rfl
  | cons d ds ih =>
    have h1 : k ∉ ds := fun hc => h (List.mem_cons_of_mem _ hc)
    have h2 : ¬ d = k := fun hc => h (hc ▸ List.mem_cons_self _ _)
    simp [lastIdxWith, ih h1, h2]

theorem lastIdxWith_spec (ds : List Nat) (k : Nat) (h : k ∈ ds) :
    ∃ j, lastIdxWith ds k = some j ∧ j < ds.length ∧ ds[j]? = some k ∧
      ∀ j2, j2 < ds.length → ds[j2]? = some k → j2 ≤ j := by
  induction ds with
  | nil => simp at h
  | cons d ds ih =>
    by_cases hm : k ∈ ds
    · obtain ⟨j, hj1, hj2, hj3, hj4⟩ := ih hm
      refine ⟨j + 1, ?_, by simpa using hj2, by simpa using hj3, ?_⟩
      · simp [lastIdxWith, hj1]
      · intro j2 hl hg
        cases j2 with
        | zero => omega
        | succ j3 =>
          have := hj4 j3 (by simpa using hl) (by simpa using hg)
          omega
    · have hd : d = k := by
        rcases List.mem_cons.mp h with h1 | h2
        · exact h1.symm
        · exact absurd h2 hm
      refine ⟨0, by simp [lastIdxWith, lastIdxWith_none_of_not_mem ds k hm, hd],
        by simp, by simp [hd], ?_⟩
      intro j2 hl hg
      cases j2 with
      | zero => omega
      | succ j3 =>
        exfalso
        apply hm
        have hg2 : ds[j3]? = some k := by simpa using hg
        obtain ⟨hlt, hv⟩ := List.getElem?_eq_some.mp hg2
        exact hv ▸ List.getElem_mem hlt

theorem bmFold_spec (s : List Char) (c : List (List Char)) (d0 : List Nat)
    (m0 : List (Nat × Nat)) (i0 : Nat) :
    (c.foldl (fun st j => (st.1 ++ [lev s j], updAssoc st.2.1 (lev s j) st.2.2, st.2.2 + 1))
        (d0, m0, i0)).1 = d0 ++ c.map (lev s) ∧
    ∀ k, lookupAssoc
        (c.foldl (fun st j => (st.1 ++ [lev s j], updAssoc st.2.1 (lev s j) st.2.2, st.2.2 + 1))
          (d0, m0, i0)).2.1 k =
      (match lastIdxWith (c.map (lev s)) k with
       | some j => some (i0 + j)
       | none => lookupAssoc m0 k) := by
  induction c generalizing d0 m0 i0 with
  | nil => simp [lastIdxWith]
  | cons j c ih =>
    obtain ⟨ih1, ih2⟩ := ih (d0 ++ [lev s j]) (updAssoc m0 (lev s j) i0) (i0 + 1)
    constructor
    · simpa using ih1
    · intro k
      rw [List.foldl_cons, ih2 k]
      simp only [List.map_cons, lastIdxWith]
      cases hL : lastIdxWith (c.map (lev s)) k with
      | some jj => simp [hL]; omega
      | none =>
        simp only [hL]
        rw [lookupAssoc_updAssoc]
        by_cases hk : k = lev s j
        · simp [hk]
        · have : ¬ lev s j = k := fun hc => hk hc.symm
          simp [hk, this]

theorem mem_insertSorted (x : Nat) (l : List Nat) (y : Nat) :
    y ∈ insertSorted x l ↔ y = x ∨ y ∈ l := by
  induction l with
  | nil => simp [insertSorted]
  | cons z zs ih =>
    by_cases h : x ≤ z
    · simp [insertSorted, h, List.mem_cons]
    · simp only [insertSorted, h, if_false, List.mem_cons, ih]
      tauto

theorem sorted_insertSorted (x : Nat) (l : List Nat) (h : l.Sorted (· ≤ ·)) :
    (insertSorted x l).Sorted (· ≤ ·) := by
  induction l with
  | nil => simp [insertSorted]
  | cons z zs ih =>
    have h1 : ∀ b ∈ zs, z ≤ b := (List.sorted_cons.mp h).1
    have h2 : zs.Sorted (· ≤ ·) := (List.sorted_cons.mp h).2
    by_cases hle : x ≤ z
    · simp only [insertSorted, hle, if_true, List.sorted_cons]
      refine ⟨fun b hb => ?_, h1, h2⟩
      rcases List.mem_cons.mp hb with hh | hh
      · omega
      · exact le_trans hle (h1 b hh)
    · simp only [insertSorted, hle, if_false, List.sorted_cons]
      refine ⟨fun b hb => ?_, ih h2⟩
      rcases (mem_insertSorted x zs b).mp hb with hh | hh
      · omega
      · exact h1 b hh

theorem mem_sortNat (l : List Nat) (y : Nat) : y ∈ sortNat l ↔ y ∈ l := by
  induction l with
  | nil => simp [sortNat]
  | cons x xs ih =>
    simp only [sortNat, List.foldr_cons]
    rw [mem_insertSorted]
    simp only [sortNat] at ih
    rw [ih, List.mem_cons]

theorem sortNat_sorted (l : List Nat) : (sortNat l).Sorted (· ≤ ·) := by
  induction l with
  | nil => simp [sortNat]
  | cons x xs ih => exact sorted_insertSorted x _ ih

theorem sortNat_head_min (l : List Nat) (d : Nat) (t : List Nat)
    (h : sortNat l = d :: t) : d ∈ l ∧ ∀ x ∈ l, d ≤ x := by
  constructor
  · exact (mem_sortNat l d).mp (h ▸ List.mem_cons_self d t)
  · intro x hx
    have hx2 : x ∈ d :: t := h ▸ (mem_sortNat l x).mpr hx
    rcases List.mem_cons.mp hx2 with h1 | h2
    · omega
    · have hs := sortNat_sorted l
      rw [h, List.sorted_cons] at hs
      exact hs.1 x h2

/-- The full behavioural characterisation of `BestMatchIndex` on a
non-empty candidate list: it returns the *last* index attaining the
minimal Levenshtein distance to the query. -/
theorem bestMatchIdx_spec (s : List Char) (cands : List (List Char)) (h : cands ≠ []) :
    ∃ i, bestMatchIdx s cands = some i ∧ i < cands.length ∧
      (∀ j, j < cands.length → lev s (cands.getD i []) ≤ lev s (cands.getD j [])) ∧
      (∀ j, j < cands.length → lev s (cands.getD j []) = lev s (cands.getD i []) → j ≤ i) := by
  obtain ⟨hd, hlookup⟩ := bmFold_spec s cands [] [] 0
  have hsne : sortNat (cands.map (lev s)) ≠ [] := by
    cases cands with
    | nil => exact absurd rfl h
    | cons a b =>
      intro hcon
      have := (mem_sortNat ((a :: b).map (lev s)) (lev s a)).mpr (by simp)
      rw [hcon] at this
      simp at this
  obtain ⟨d, t, hsort⟩ : ∃ d t, sortNat (cands.map (lev s)) = d :: t := by
    cases hs : sortNat (cands.map (lev s)) with
    | nil => exact absurd hs hsne
    | cons d t => exact ⟨d, t, rfl⟩
  obtain ⟨hdmem, hdmin⟩ := sortNat_head_min _ _ _ hsort
  obtain ⟨j, hj1, hj2, hj3, hj4⟩ := lastIdxWith_spec (cands.map (lev s)) d hdmem
  have hdlookup := hlookup d
  rw [hj1] at hdlookup
  have hd1 : (cands.foldl
      (fun st j => (st.1 ++ [lev s j], updAssoc st.2.1 (lev s j) st.2.2, st.2.2 + 1))
      ([], [], 0)).1 = cands.map (lev s) := by simpa using hd
  have hres : bestMatchIdx s cands = some j := by
    unfold bestMatchIdx bmState
    rw [hd1, hsort]
    simp [hdlookup]
  have hjlen : j < cands.length := by simpa using hj2
  have hex : ∃ cj, (cands[j]?) = some cj ∧ lev s cj = d := by
    rw [List.getElem?_map] at hj3
    cases hcq : cands[j]? with
    | none => rw [hcq] at hj3; simp at hj3
    | some cj =>
      rw [hcq] at hj3
      simp only [Option.map_some', Option.some.injEq] at hj3
      exact ⟨cj, rfl, hj3⟩
  obtain ⟨cj, hcj1, hcj2⟩ := hex
  have hgetD : cands.getD j [] = cj := by
    rw [List.getD_eq_getElem?_getD, hcj1]
    rfl
  refine ⟨j, hres, hjlen, ?_, ?_⟩
  · intro j2 hlt
    rw [hgetD, hcj2]
    apply hdmin
    have : cands.getD j2 [] ∈ cands := by
      rw [List.getD_eq_getElem cands [] hlt]
      exact List.getElem_mem hlt
    exact List.mem_map_of_mem (lev s) this
  · intro j2 hlt heq
    apply hj4 j2 (by simpa using hlt)
    rw [List.getElem?_map]
    cases hcq : cands[j2]? with
    | none =>
      rw [List.getElem?_eq_none_iff] at hcq
      omega
    | some cj2 =>
      have hg2 : cands.getD j2 [] = cj2 := by
        rw [List.getD_eq_getElem?_getD, hcq]
        rfl
      rw [hg2, hgetD, hcj2] at heq
      simp [heq]


/-! ## Claims C2 and C6 -/

theorem seasonString_ne_specials (n : Int) :
    "Season ".data ++ (toString n).data ≠ "Specials".data := by
  intro hcon
  have h2 : ("Season ".data ++ (toString n).data).take 2 = "Specials".data.take 2 := by
    rw [hcon]
  rw [List.take_append_of_le_length (by decide)] at h2
  exact absurd h2 (by decide)

/-- Claim C2: for every path that classifies as an Episode, the season
folder component of the planned target path is `Specials` iff the parsed
season number is 0, and is `Season <N>` for every season number N > 0;
the planned target is `tv/<series>/<season folder>/<rest>`. -/
theorem claim_C2 (o : GOpts) (path : List Char) (e : EpisodeT) (errs : List KErr)
    (h : NewLinkable o path = (.ep e, errs)) :
    (seasonFolder e = "Specials".data ↔ e.season = 0) ∧
    (∀ n : Int, e.season = n → 0 < n →
      seasonFolder e = "Season ".data ++ (toString n).data) ∧
    (∃ tail, epTarget e =
      "tv/".data ++ seriesDisp e ++ "/".data ++ seasonFolder e ++ "/".data ++ tail) := by
  refine ⟨?_, ?_, ?_⟩
  · constructor
    · intro hs
      by_contra hne
      rw [seasonFolder, if_neg hne] at hs
      exact seasonString_ne_specials e.season hs
    · intro hs
      rw [seasonFolder, if_pos hs]
  · intro n hn hpos
    have hne : ¬ e.season = 0 := by omega
    rw [seasonFolder, if_neg hne, hn]
  · unfold epTarget
    by_cases ht : e.title ≠ []
    · exact ⟨seriesDisp e ++ " - ".data ++ epIdDisp e ++ " - ".data ++ e.title
        ++ (goExtSplit (splitPath e.path).2).2, by simp [ht]⟩
    · exact ⟨seriesDisp e ++ " - ".data ++ epIdDisp e
        ++ (goExtSplit (splitPath e.path).2).2, by simp [ht]⟩

theorem claim_C2_witness :
    (seasonFolder (EpisodeFromPath ⟨false⟩
        "/foo/bar/BEASTMODE (2001) - S00E10E11E12.mkv".data).1 = "Specials".data ↔
      (EpisodeFromPath ⟨false⟩
        "/foo/bar/BEASTMODE (2001) - S00E10E11E12.mkv".data).1.season = 0) ∧
    (∀ n : Int,
      (EpisodeFromPath ⟨false⟩
        "/foo/bar/BEASTMODE (2001) - S00E10E11E12.mkv".data).1.season = n → 0 < n →
      seasonFolder (EpisodeFromPath ⟨false⟩
        "/foo/bar/BEASTMODE (2001) - S00E10E11E12.mkv".data).1 =
        "Season ".data ++ (toString n).data) ∧
    (∃ tail, epTarget (EpisodeFromPath ⟨false⟩
        "/foo/bar/BEASTMODE (2001) - S00E10E11E12.mkv".data).1 =
      "tv/".data ++ seriesDisp (EpisodeFromPath ⟨false⟩
        "/foo/bar/BEASTMODE (2001) - S00E10E11E12.mkv".data).1 ++ "/".data
        ++ seasonFolder (EpisodeFromPath ⟨false⟩
          "/foo/bar/BEASTMODE (2001) - S00E10E11E12.mkv".data).1 ++ "/".data ++ tail) :=
  claim_C2 ⟨false⟩ "/foo/bar/BEASTMODE (2001) - S00E10E11E12.mkv".data _ _ rfl

/-- Claim C6: Link creation is idempotent.  If the target exists, Create
mutates nothing and the outcome is the "already exists" report, not an
error; otherwise it first creates all missing parents and then the
hardlink; after a successful Create, a second Create of the same Link is
a no-op, the target carries exactly one link, and no error is
reported. -/
theorem claim_C6 :
    (∀ fs l, fsExists fs l.Target → linkCreate fs l = (fs, .existed)) ∧
    (∀ fs l, ¬ fsExists fs l.Target →
      linkCreate fs l =
        (match mkdirAll fs (dirOf l.Target) with
         | none => (fs, .mkdirErr)
         | some fs1 =>
           match osLink fs1 l.Src l.Target with
           | none => (fs1, .linkErr)
           | some fs2 => (fs2, .ok))) ∧
    (∀ fs l fs1, linkCreate fs l = (fs1, .ok) →
      linkCreate fs1 l = (fs1, .existed) ∧ fs1.files.count l.Target = 1) := by
  refine ⟨?_, ?_, ?_⟩
  · intro fs l h
    unfold linkCreate
    rw [if_pos h]
  · intro fs l h
    unfold linkCreate
    rw [if_neg h]
  · intro fs l fs1 h
    unfold linkCreate at h
    by_cases hex : fsExists fs l.Target
    · rw [if_pos hex] at h
      exact absurd (congrArg Prod.snd h) (by simp)
    · rw [if_neg hex] at h
      cases hmk : mkdirAll fs (dirOf l.Target) with
      | none =>
        rw [hmk] at h
        exact absurd (congrArg Prod.snd h) (by simp)
      | some fsm =>
        rw [hmk] at h
        have h2 : (match osLink fsm l.Src l.Target with
            | none => (fsm, CreateRes.linkErr)
            | some fs2 => (fs2, CreateRes.ok)) = (fs1, CreateRes.ok) := h
        clear h
        cases hln : osLink fsm l.Src l.Target with
        | none =>
          rw [hln] at h2
          exact absurd (congrArg Prod.snd h2) (by simp)
        | some fs2 =>
          rw [hln] at h2
          have hfs1 : fs2 = fs1 := congrArg Prod.fst h2
          subst hfs1
          unfold osLink at hln
          by_cases hc : l.Src ∈ fsm.files ∧ ¬ fsExists fsm l.Target
          · rw [if_pos hc] at hln
            have hshape : fs2 = { fsm with files := l.Target :: fsm.files } :=
              (Option.some.injEq _ _ ▸ hln).symm
            have hmem : l.Target ∈ fs2.files := by
              rw [hshape]
              exact List.mem_cons_self _ _
            constructor
            · unfold linkCreate
              rw [if_pos (show fsExists fs2 l.Target from Or.inr hmem)]
            · rw [hshape]
              simp only [List.count_cons_self]
              have hnotm : l.Target ∉ fsm.files := fun hm => hc.2 (Or.inr hm)
              rw [List.count_eq_zero.mpr hnotm]
          · rw [if_neg hc] at hln
            exact absurd hln (by simp)

/-- A concrete filesystem for the C6 witness. -/
def wfs0 : FS :=
  { dirs := ["d".data], files := ["d/src.mkv".data] }

/-- The concrete link for the C6 witness. -/
def wl0 : LinkT :=
  { Src := "d/src.mkv".data, Target := "d/out/tv/x.mkv".data }

theorem claim_C6_witness :
    linkCreate (linkCreate wfs0 wl0).1 wl0 = ((linkCreate wfs0 wl0).1, .existed) ∧
    ((linkCreate wfs0 wl0).1).files.count wl0.Target = 1 :=
  claim_C6.2.2 wfs0 wl0 (linkCreate wfs0 wl0).1 (by decide)

/-! ## Claim C3 -/

/-- The query media of the C3 counterexample. -/
def c3media : MediaT := { Title := "A".data, Date := "2000".data }

/-- The provider results of the C3 counterexample: two candidates with
identical titles and matching years but different ids. -/
def c3results : List MovieShort :=
  [{ Title := "A".data, ReleaseDate := "2000".data, ID := 1 },
   { Title := "A".data, ReleaseDate := "2000".data, ID := 2 }]

/-- Claim C3 counterexample: both candidates survive the year filter and
tie at edit distance 0, yet the candidate selected is the SECOND (id 2),
not the first-encountered one (id 1): `dMap[d] = i` overwrites earlier
indices, so ties resolve to the last index. -/
theorem claim_C3_counterexample :
    (c3results.filter (fun mv => DateMatch c3media.Date mv.ReleaseDate)).length = 2 ∧
    lev c3media.Title ("A".data) = 0 ∧
    MatchMovieSearch c3media c3results =
      some (.found { Title := "A".data, ReleaseDate := "2000".data, ID := 2 }) ∧
    ({ Title := "A".data, ReleaseDate := "2000".data, ID := 2 } : MovieShort) ≠
      { Title := "A".data, ReleaseDate := "2000".data, ID := 1 } := by
  refine ⟨by decide, by decide, by decide, by decide⟩

/-- Claim C3 as amended: when more than one candidate remains after the
year filter, the selected candidate is drawn from the provider's *full*
result list (not only the year-filtered remainder) as the one whose title
has the smallest Levenshtein distance to the parsed title, and among
equal-distance candidates the LAST-encountered index wins. -/
theorem claim_C3_amended (m : MediaT) (results : List MovieShort)
    (h2 : 2 ≤ results.length)
    (hf : 2 ≤ (results.filter (fun mv => DateMatch m.Date mv.ReleaseDate)).length) :
    ∃ i, i < results.length ∧
      MatchMovieSearch m results = some (.found (results.getD i default)) ∧
      (∀ j, j < results.length →
        lev m.Title ((results.getD i default).Title) ≤
          lev m.Title ((results.getD j default).Title)) ∧
      (∀ j, j < results.length →
        lev m.Title ((results.getD j default).Title) =
          lev m.Title ((results.getD i default).Title) → j ≤ i) := by
  obtain ⟨a, b, rest, hshape⟩ : ∃ a b rest, results = a :: b :: rest := by
    cases results with
    | nil => simp at h2
    | cons a tl =>
      cases tl with
      | nil => simp at h2
      | cons b rest => exact ⟨a, b, rest, rfl⟩
  subst hshape
  obtain ⟨f1, f2, frest, hfshape⟩ : ∃ f1 f2 frest,
      (a :: b :: rest).filter (fun mv => DateMatch m.Date mv.ReleaseDate) =
        f1 :: f2 :: frest := by
    cases hff : (a :: b :: rest).filter (fun mv => DateMatch m.Date mv.ReleaseDate) with
    | nil => rw [hff] at hf; simp at hf
    | cons f1 tl =>
      cases tl with
      | nil => rw [hff] at hf; simp at hf
      | cons f2 frest => exact ⟨f1, f2, frest, rfl⟩
  have hnames : ((a :: b :: rest).map (·.Title)) ≠ [] := by simp
  obtain ⟨i, hbm, hlen, hmin, hlast⟩ := bestMatchIdx_spec m.Title _ hnames
  rw [List.length_map] at hlen
  have hgetname : ∀ j, j < (a :: b :: rest).length →
      ((a :: b :: rest).map (·.Title)).getD j [] =
        ((a :: b :: rest).getD j default).Title := by
    intro j hj
    rw [List.getD_eq_getElem?_getD, List.getElem?_map,
      List.getD_eq_getElem?_getD]
    cases hq : (a :: b :: rest)[j]? with
    | none =>
      rw [List.getElem?_eq_none_iff] at hq
      omega
    | some r => simp
  obtain ⟨r, hr⟩ : ∃ r, (a :: b :: rest)[i]? = some r := by
    cases hq : (a :: b :: rest)[i]? with
    | none =>
      rw [List.getElem?_eq_none_iff] at hq
      omega
    | some r => exact ⟨r, rfl⟩
  have hrgetD : (a :: b :: rest).getD i default = r := by
    rw [List.getD_eq_getElem?_getD, hr]
    rfl
  refine ⟨i, hlen, ?_, ?_, ?_⟩
  · show MatchMovieSearch m (a :: b :: rest) = _
    unfold MatchMovieSearch
    rw [hfshape]
    simp only
    rw [hbm]
    simp only
    rw [show (a :: b :: rest).get? i = some r from by
      rw [List.get?_eq_getElem?]; exact hr]
    rw [hrgetD]
  · intro j hj
    have := hmin j (by simpa using hj)
    rwa [hgetname i hlen, hgetname j hj] at this
  · intro j hj heq
    apply hlast j (by simpa using hj)
    rwa [hgetname i hlen, hgetname j hj]

/-- The query media of the C3 amended witness. -/
def c3wm : MediaT := { Title := "AB".data, Date := "2000".data }

/-- The provider results of the C3 amended witness. -/
def c3wres : List MovieShort :=
  [{ Title := "AB".data, ReleaseDate := "2000".data, ID := 1 },
   { Title := "AXYZ".data, ReleaseDate := "2000".data, ID := 2 }]

theorem claim_C3_amended_witness :
    ∃ i, i < c3wres.length ∧
      MatchMovieSearch c3wm c3wres = some (.found (c3wres.getD i default)) ∧
      (∀ j, j < c3wres.length →
        lev c3wm.Title ((c3wres.getD i default).Title) ≤
          lev c3wm.Title ((c3wres.getD j default).Title)) ∧
      (∀ j, j < c3wres.length →
        lev c3wm.Title ((c3wres.getD j default).Title) =
          lev c3wm.Title ((c3wres.getD i default).Title) → j ≤ i) :=
  claim_C3_amended c3wm c3wres (by decide) (by decide)

/-! ## Claim C10 -/

/-- Claim C10: `BestMatchIndex` panics on an empty candidate list
(indexing the first element of the empty sorted distance slice, modelled
as `none`); on a non-empty list it is total and returns an in-bounds
index; and every call site in the lookup layer reaches it only with at
least two candidates, so no pipeline execution can hit the panic
(`MatchMovieSearch`, `lookupTV` and the `lookupMovie` loop are total). -/
theorem claim_C10 :
    (∀ s, bestMatchIdx s [] = none) ∧
    (∀ s cands, cands ≠ [] → ∃ i, bestMatchIdx s cands = some i ∧ i < cands.length) ∧
    (∀ m results, MatchMovieSearch m results ≠ none) ∧
    (∀ net cache m, lookupTV net cache m ≠ none) ∧
    (∀ net m fuel title, lookupMovieLoop net m fuel title ≠ none) := by
  refine ⟨fun s => rfl, ?_, ?_, ?_, ?_⟩
  · intro s cands h
    obtain ⟨i, h1, h2, _, _⟩ := bestMatchIdx_spec s cands h
    exact ⟨i, h1, h2⟩
  · intro m results
    match results with
    | [] => simp [MatchMovieSearch]
    | [r] => simp [MatchMovieSearch]
    | a :: b :: rest =>
      unfold MatchMovieSearch
      cases hff : (a :: b :: rest).filter (fun mv => DateMatch m.Date mv.ReleaseDate) with
      | nil => simp
      | cons f1 ftl =>
        cases ftl with
        | nil => simp
        | cons f2 frest =>
          simp only
          obtain ⟨i, hbm, hlen, _, _⟩ :=
            bestMatchIdx_spec m.Title ((a :: b :: rest).map (·.Title)) (by simp)
          rw [hbm]
          rw [List.length_map] at hlen
          obtain ⟨r, hr⟩ : ∃ r, (a :: b :: rest).get? i = some r := by
            cases hq : (a :: b :: rest).get? i with
            | none =>
              rw [List.get?_eq_getElem?, List.getElem?_eq_none_iff] at hq
              omega
            | some r => exact ⟨r, rfl⟩
          rw [List.get?_eq_getElem?] at hr
          simp [hr]
  · intro net cache m
    unfold lookupTV
    cases hcl : cacheLoad cache m.Title with
    | some l => simp
    | none =>
      cases hnet : net m.Title with
      | none => simp
      | some rs =>
        match rs with
        | [] => simp
        | [r] => simp
        | a :: b :: rest =>
          simp only
          obtain ⟨i, hbm, hlen, _, _⟩ :=
            bestMatchIdx_spec m.Title ((a :: b :: rest).map (·.Name)) (by simp)
          rw [hbm]
          have hlen2 : i < (a :: b :: rest).length := by
            rw [List.length_map] at hlen
            exact hlen
          obtain ⟨nm, hnm⟩ : ∃ nm, ((a :: b :: rest).map (·.Name)).get? i = some nm := by
            cases hq : ((a :: b :: rest).map (·.Name)).get? i with
            | none =>
              rw [List.get?_eq_getElem?, List.getElem?_eq_none_iff] at hq
              omega
            | some nm => exact ⟨nm, rfl⟩
          obtain ⟨r, hr⟩ : ∃ r, (a :: b :: rest).get? i = some r := by
            cases hq : (a :: b :: rest).get? i with
            | none =>
              rw [List.get?_eq_getElem?, List.getElem?_eq_none_iff] at hq
              omega
            | some r => exact ⟨r, rfl⟩
          rw [List.get?_eq_getElem?] at hr hnm
          simp only [List.map_cons] at hnm
          simp [hnm, hr]
  · intro net m fuel
    induction fuel with
    | zero => intro title; simp [lookupMovieLoop]
    | succ f ih =>
      intro title
      unfold lookupMovieLoop
      by_cases ht : title = []
      · simp [ht]
      · simp only [ht, if_false]
        cases hnet : net title with
        | none => simp
        | some rs =>
          match rs with
          | [] => exact ih (titlePop title)
          | [r] => simp
          | a :: b :: rest =>
            simp only
            cases hff : (a :: b :: rest).filter
                (fun mv => movieDateMatch m.Date mv.ReleaseDate) with
            | nil => exact ih (titlePop title)
            | cons f1 ftl =>
              cases ftl with
              | nil => simp
              | cons f2 frest =>
                simp only
                obtain ⟨i, hbm, hlen, _, _⟩ :=
                  bestMatchIdx_spec title ((a :: b :: rest).map (·.Title)) (by simp)
                rw [hbm]
                rw [List.length_map] at hlen
                obtain ⟨r, hr⟩ : ∃ r, (a :: b :: rest).get? i = some r := by
                  cases hq : (a :: b :: rest).get? i with
                  | none =>
                    rw [List.get?_eq_getElem?, List.getElem?_eq_none_iff] at hq
                    omega
                  | some r => exact ⟨r, rfl⟩
                rw [List.get?_eq_getElem?] at hr
                simp [hr]

theorem claim_C10_witness :
    ∃ i, bestMatchIdx "query".data ["alpha".data, "beta".data] = some i ∧
      i < (["alpha".data, "beta".data] : List (List Char)).length :=
  claim_C10.2.1 "query".data ["alpha".data, "beta".data] (by decide)

/-! ## Claim C4 -/

theorem cacheLoad_cacheStore (c : TVCache) (k : List Char) (v : LookupItems)
    (k2 : List Char) :
    cacheLoad (cacheStore c k v) k2 = if k = k2 then some v else cacheLoad c k2 := by
  induction c with
  | nil => simp [cacheStore, cacheLoad]
  | cons p rest ih =>
    obtain ⟨ka, va⟩ := p
    simp only [cacheStore]
    by_cases hk : ka = k
    · subst hk
      simp only [if_true, cacheLoad]
      by_cases h2 : ka = k2 <;> simp [h2]
    · simp only [hk, if_false, cacheLoad, ih]
      by_cases hA : ka = k2
      · subst hA
        simp [Ne.symm hk]
      · simp [hA]

/-- Claim C4 counterexample: when the provider returns no results, the
first resolution of a raw title caches nothing, so a second resolution of
the same raw title (run on the cache state the first one left behind)
performs a network query again — the Bool in third position is the
"queried the network" flag, `true` both times. -/
theorem claim_C4_counterexample :
    (lookupTV (fun _ => some []) ([] : TVCache) { Title := "X".data } =
      some ({ Title := "X".data }, ([] : TVCache), true, true)) ∧
    ((lookupTV (fun _ => some []) ([] : TVCache) { Title := "X".data }).bind
        (fun r => lookupTV (fun _ => some []) r.2.1 r.1) =
      some ({ Title := "X".data }, ([] : TVCache), true, true)) := by
  constructor
  · rfl
  · rfl

/-- Claim C4 as amended: if the FIRST resolution of a raw title succeeds,
then a second resolution of the same raw title performs no network query
and yields the same canonical title; the cache is keyed by the raw
(pre-resolution) title, written through on the first successful
resolution, and no existing entry is ever evicted. -/
theorem claim_C4_amended (net : List Char → Option (List TVRes)) (cache : TVCache)
    (m m1 : MediaT) (c1 : TVCache) (q1 : Bool)
    (h : lookupTV net cache m = some (m1, c1, q1, false))
    (m2 : MediaT) (ht : m2.Title = m.Title) :
    (∃ m3, lookupTV net c1 m2 = some (m3, c1, false, false) ∧ m3.Title = m1.Title) ∧
    (∀ k v, cacheLoad cache k = some v → cacheLoad c1 k = some v) := by
  unfold lookupTV at h
  cases hcl : cacheLoad cache m.Title with
  | some l =>
    rw [hcl] at h
    simp only [Option.some.injEq, Prod.mk.injEq] at h
    obtain ⟨hm1, hc1, _, _⟩ := h
    subst hc1
    constructor
    · refine ⟨{ m2 with Title := l.title, tmdbID := l.id }, ?_, ?_⟩
      · unfold lookupTV
        rw [ht, hcl]
      · rw [← hm1]
    · intro k v hkv
      exact hkv
  | none =>
    rw [hcl] at h
    cases hnet : net m.Title with
    | none =>
      rw [hnet] at h
      simp at h
    | some rs =>
      rw [hnet] at h
      match rs with
      | [] => simp at h
      | [r] =>
        simp only [Option.some.injEq, Prod.mk.injEq] at h
        obtain ⟨hm1, hc1, _, _⟩ := h
        have hload : cacheLoad c1 m.Title = some { title := r.Name, id := r.ID } := by
          rw [← hc1, cacheLoad_cacheStore]
          simp
        constructor
        · refine ⟨{ m2 with Title := r.Name, tmdbID := r.ID }, ?_, ?_⟩
          · unfold lookupTV
            rw [ht, hload]
          · rw [← hm1]
        · intro k v hkv
          rw [← hc1, cacheLoad_cacheStore]
          by_cases hkk : m.Title = k
          · rw [hkk] at hcl
            rw [hcl] at hkv
            exact absurd hkv (by simp)
          · rw [if_neg hkk]
            exact hkv
      | a :: b :: rest =>
        have h2 : (match bestMatchIdx m.Title ((a :: b :: rest).map (·.Name)) with
            | none => none
            | some i =>
              match ((a :: b :: rest).map (·.Name)).get? i, (a :: b :: rest).get? i with
              | some nm, some r =>
                some ({ m with Title := nm, tmdbID := r.ID },
                  cacheStore cache m.Title { title := nm, id := r.ID }, true, false)
              | _, _ => none) = some (m1, c1, q1, false) := h
        clear h
        cases hbm : bestMatchIdx m.Title ((a :: b :: rest).map (·.Name)) with
        | none => rw [hbm] at h2; simp at h2
        | some i =>
          rw [hbm] at h2
          have h3 : (match ((a :: b :: rest).map (·.Name)).get? i,
                (a :: b :: rest).get? i with
              | some nm, some r =>
                some (({ m with Title := nm, tmdbID := r.ID } : MediaT),
                  cacheStore cache m.Title { title := nm, id := r.ID }, true, false)
              | _, _ => none) = some (m1, c1, q1, false) := h2
          clear h2
          cases hnm : ((a :: b :: rest).map (·.Name)).get? i with
          | none => rw [hnm] at h3; simp at h3
          | some nm =>
            cases hri : (a :: b :: rest).get? i with
            | none => rw [hnm, hri] at h3; simp at h3
            | some r =>
              rw [hnm, hri] at h3
              simp only [Option.some.injEq, Prod.mk.injEq] at h3
              obtain ⟨hm1, hc1, _, _⟩ := h3
              have hload : cacheLoad c1 m.Title = some { title := nm, id := r.ID } := by
                rw [← hc1, cacheLoad_cacheStore]
                simp
              constructor
              · refine ⟨{ m2 with Title := nm, tmdbID := r.ID }, ?_, ?_⟩
                · unfold lookupTV
                  rw [ht, hload]
                · rw [← hm1]
              · intro k v hkv
                rw [← hc1, cacheLoad_cacheStore]
                by_cases hkk : m.Title = k
                · rw [hkk] at hcl
                  rw [hcl] at hkv
                  exact absurd hkv (by simp)
                · rw [if_neg hkk]
                  exact hkv

/-- The provider oracle of the C4 witness: one result for every query. -/
def c4net : List Char → Option (List TVRes) :=
  fun _ => some [{ Name := "Xena".data, ID := 7 }]

theorem claim_C4_amended_witness :
    (∃ m3, lookupTV c4net
        (cacheStore [] "X".data { title := "Xena".data, id := 7 })
        { Title := "X".data } = some (m3,
          cacheStore [] "X".data { title := "Xena".data, id := 7 }, false, false) ∧
      m3.Title = ({ Title := "Xena".data, tmdbID := 7 } : MediaT).Title) ∧
    (∀ k v, cacheLoad ([] : TVCache) k = some v →
      cacheLoad (cacheStore [] "X".data { title := "Xena".data, id := 7 }) k = some v) :=
  claim_C4_amended c4net [] { Title := "X".data } { Title := "Xena".data, tmdbID := 7 }
    (cacheStore [] "X".data { title := "Xena".data, id := 7 }) true rfl
    { Title := "X".data } rfl

/-! ## Claim C5 -/

theorem splitCh_ne_nil (sep : Char) (l : List Char) : splitCh sep l ≠ [] := by
  cases l with
  | nil => simp [splitCh]
  | cons x xs =>
    simp only [splitCh]
    cases hs : splitCh sep xs with
    | nil => by_cases hx : x = sep <;> simp [hx]
    | cons h t => by_cases hx : x = sep <;> simp [hx]

theorem splitCh_cons_sep (sep : Char) (xs : List Char) :
    splitCh sep (sep :: xs) = [] :: splitCh sep xs := by
  simp only [splitCh]
  cases hs : splitCh sep xs with
  | nil => exact absurd hs (splitCh_ne_nil sep xs)
  | cons h t => simp

theorem splitCh_cons_of_ne (sep x : Char) (xs : List Char) (hx : ¬ x = sep) :
    splitCh sep (x :: xs) =
      (x :: (splitCh sep xs).headD []) :: (splitCh sep xs).tail := by
  simp only [splitCh]
  cases hs : splitCh sep xs with
  | nil => exact absurd hs (splitCh_ne_nil sep xs)
  | cons h t => simp [hx]

theorem splitCh_length (sep : Char) (l : List Char) :
    (splitCh sep l).length = (l.filter (· = sep)).length + 1 := by
  induction l with
  | nil => simp [splitCh]
  | cons x xs ih =>
    by_cases hx : x = sep
    · subst hx
      rw [splitCh_cons_sep, List.filter_cons_of_pos (by simp)]
      simp only [List.length_cons]
      omega
    · rw [splitCh_cons_of_ne sep x xs hx, List.filter_cons_of_neg (by simp [hx])]
      simp only [List.length_cons]
      have hne := splitCh_ne_nil sep xs
      cases hs : splitCh sep xs with
      | nil => exact absurd hs hne
      | cons h t =>
        rw [hs] at ih
        simp only [List.length_cons] at ih
        simp only [List.tail_cons, List.length_cons]
        omega

theorem tmdbLoop_qs_prefix (net : List Char → Option MovieRes) (v : MovieT)
    (l : List (List Char)) :
    ∃ t, (tmdbLookupMovieLoop net v l).2 ++ t = l := by
  induction l with
  | nil => exact ⟨[], rfl⟩
  | cons t0 rest ih =>
    unfold tmdbLookupMovieLoop
    cases hnet : net t0 with
    | none =>
      obtain ⟨t, ht⟩ := ih
      exact ⟨t, by simp [ht]⟩
    | some res => exact ⟨rest, rfl⟩

theorem tmdbLoop_step_none (net : List Char → Option MovieRes) (v : MovieT)
    (t0 : List Char) (rest : List (List Char)) (hnet : net t0 = none) :
    tmdbLookupMovieLoop net v (t0 :: rest) =
      ((tmdbLookupMovieLoop net v rest).1, t0 :: (tmdbLookupMovieLoop net v rest).2) := by
  have hdef : tmdbLookupMovieLoop net v (t0 :: rest) =
      (match net t0 with
       | none => ((tmdbLookupMovieLoop net v rest).1, t0 :: (tmdbLookupMovieLoop net v rest).2)
       | some res =>
         (if yearValid { v with title := res.Title } then { v with title := res.Title }
          else { v with title := res.Title, year := res.ReleaseYear }, [t0])) := rfl
  rw [hdef, hnet]

theorem tmdbLoop_step_some (net : List Char → Option MovieRes) (v : MovieT)
    (t0 : List Char) (rest : List (List Char)) (res : MovieRes)
    (hnet : net t0 = some res) :
    tmdbLookupMovieLoop net v (t0 :: rest) =
      (if yearValid { v with title := res.Title } then { v with title := res.Title }
       else { v with title := res.Title, year := res.ReleaseYear }, [t0]) := by
  have hdef : tmdbLookupMovieLoop net v (t0 :: rest) =
      (match net t0 with
       | none => ((tmdbLookupMovieLoop net v rest).1, t0 :: (tmdbLookupMovieLoop net v rest).2)
       | some res =>
         (if yearValid { v with title := res.Title } then { v with title := res.Title }
          else { v with title := res.Title, year := res.ReleaseYear }, [t0])) := rfl
  rw [hdef, hnet]

theorem tmdbLoop_mid_none (net : List Char → Option MovieRes) (v : MovieT)
    (l : List (List Char)) :
    ∀ i, i + 1 < (tmdbLookupMovieLoop net v l).2.length →
      net ((tmdbLookupMovieLoop net v l).2.getD i []) = none := by
  induction l with
  | nil => intro i hi; simp [tmdbLookupMovieLoop] at hi
  | cons t0 rest ih =>
    intro i hi
    cases hnet : net t0 with
    | none =>
      rw [tmdbLoop_step_none net v t0 rest hnet] at hi ⊢
      simp only [List.length_cons] at hi
      cases i with
      | zero => simpa using hnet
      | succ i2 =>
        simp only [List.getD_cons_succ]
        exact ih i2 (by omega)
    | some res =>
      rw [tmdbLoop_step_some net v t0 rest res hnet] at hi
      simp at hi

theorem tmdbLoop_last_success (net : List Char → Option MovieRes) (v : MovieT)
    (l : List (List Char)) :
    ∀ q r, (tmdbLookupMovieLoop net v l).2.getLast? = some q → net q = some r →
      (tmdbLookupMovieLoop net v l).1.title = r.Title := by
  induction l with
  | nil => intro q r hq; simp [tmdbLookupMovieLoop] at hq
  | cons t0 rest ih =>
    intro q r hq hr
    cases hnet : net t0 with
    | none =>
      rw [tmdbLoop_step_none net v t0 rest hnet] at hq ⊢
      cases hq2 : (tmdbLookupMovieLoop net v rest).2 with
      | nil =>
        rw [hq2] at hq
        simp only [List.getLast?_singleton, Option.some.injEq] at hq
        subst hq
        rw [hnet] at hr
        exact absurd hr (by simp)
      | cons q0 qt =>
        rw [hq2] at hq
        rw [List.getLast?_cons_cons] at hq
        exact ih q r (by rw [hq2]; exact hq) hr
    | some res =>
      rw [tmdbLoop_step_some net v t0 rest res hnet] at hq ⊢
      simp only [List.getLast?_singleton, Option.some.injEq] at hq
      subst hq
      rw [hnet] at hr
      have hres : res = r := by simpa using hr
      subst hres
      by_cases hy : yearValid { v with title := res.Title }
      · simp [hy]
      · simp [hy]

theorem tmdbLoop_basic (net : List Char → Option MovieRes) (v : MovieT)
    (L : List (List Char)) :
    (tmdbLookupMovieLoop net v L).2.length ≤ L.length ∧
    (∀ i, i < (tmdbLookupMovieLoop net v L).2.length →
      (tmdbLookupMovieLoop net v L).2.getD i [] = L.getD i []) := by
  obtain ⟨t, ht⟩ := tmdbLoop_qs_prefix net v L
  constructor
  · have h2 := congrArg List.length ht
    simp only [List.length_append] at h2
    omega
  · intro i hi
    have h3 : ((tmdbLookupMovieLoop net v L).2)[i]? = L[i]? := by
      conv_rhs => rw [← ht]
      rw [List.getElem?_append_left hi]
    rw [List.getD_eq_getElem?_getD, List.getD_eq_getElem?_getD, h3]

/-- Claim C5: for a movie whose parsed title splits into w words, the
resolver queries at most ceil(w/2) = (w+1)/2 title variants; the queried
sequence is a prefix of the variant list, whose i-th entry (0-based) is
the title with its last i words dropped, so variants run from most to
least specific; every query before the last returned no results; and if
the last query returned a result, that result's title enriches the
entity and no further variant is queried. -/
theorem claim_C5 (net : List Char → Option MovieRes) (v : MovieT) :
    (tmdbLookupMovie net v).2.length ≤ ((splitCh ' ' v.title).length + 1) / 2 ∧
    (∃ t, (tmdbLookupMovie net v).2 ++ t =
      titleVariants v.title (countSpaces v.title / 2 + 1)) ∧
    (∀ i, i < (tmdbLookupMovie net v).2.length →
      (tmdbLookupMovie net v).2.getD i [] =
        joinSpace ((splitCh ' ' v.title).take ((splitCh ' ' v.title).length - i))) ∧
    (∀ i, i + 1 < (tmdbLookupMovie net v).2.length →
      net ((tmdbLookupMovie net v).2.getD i []) = none) ∧
    (∀ q r, (tmdbLookupMovie net v).2.getLast? = some q → net q = some r →
      (tmdbLookupMovie net v).1.title = r.Title) := by
  have hdef : tmdbLookupMovie net v =
      tmdbLookupMovieLoop net v (titleVariants v.title (countSpaces v.title / 2 + 1)) := rfl
  have hw : (splitCh ' ' v.title).length = countSpaces v.title + 1 := by
    rw [splitCh_length]
    rfl
  have hLlen : (titleVariants v.title (countSpaces v.title / 2 + 1)).length =
      min (countSpaces v.title / 2 + 1) (splitCh ' ' v.title).length := by
    simp [titleVariants]
  obtain ⟨hle, hval⟩ := tmdbLoop_basic net v
    (titleVariants v.title (countSpaces v.title / 2 + 1))
  refine ⟨?_, ?_, ?_, ?_, ?_⟩
  · rw [hdef]
    have harith : ((splitCh ' ' v.title).length + 1) / 2 = countSpaces v.title / 2 + 1 := by
      rw [hw]
      exact Nat.add_div_right (countSpaces v.title) (show (0 : Nat) < 2 by norm_num)
    rw [harith]
    rw [hLlen] at hle
    omega
  · rw [hdef]
    exact tmdbLoop_qs_prefix net v _
  · intro i hi
    rw [hdef] at hi ⊢
    rw [hval i hi]
    have hiL : i < (titleVariants v.title (countSpaces v.title / 2 + 1)).length := by
      omega
    rw [hLlen] at hiL
    unfold titleVariants
    rw [List.getD_eq_getElem?_getD, List.getElem?_map, List.getElem?_range hiL]
    rfl
  · intro i hi
    rw [hdef] at hi ⊢
    exact tmdbLoop_mid_none net v _ i hi
  · intro q r hq hr
    rw [hdef] at hq ⊢
    exact tmdbLoop_last_success net v _ q r hq hr

/-- The provider oracle of the C5 witness: only the three-word variant
has a result. -/
def c5net : List Char → Option MovieRes :=
  fun t => if t = "A B C".data then some { Title := "Alpha".data, ReleaseYear := 1999 }
    else none

/-- The movie of the C5 witness. -/
def c5movie : MovieT := { title := "A B C D".data }

theorem claim_C5_witness :
    (tmdbLookupMovie c5net c5movie).2.length ≤ ((splitCh ' ' c5movie.title).length + 1) / 2 ∧
    (∃ t, (tmdbLookupMovie c5net c5movie).2 ++ t =
      titleVariants c5movie.title (countSpaces c5movie.title / 2 + 1)) ∧
    (∀ i, i < (tmdbLookupMovie c5net c5movie).2.length →
      (tmdbLookupMovie c5net c5movie).2.getD i [] =
        joinSpace ((splitCh ' ' c5movie.title).take ((splitCh ' ' c5movie.title).length - i))) ∧
    (∀ i, i + 1 < (tmdbLookupMovie c5net c5movie).2.length →
      c5net ((tmdbLookupMovie c5net c5movie).2.getD i []) = none) ∧
    (∀ q r, (tmdbLookupMovie c5net c5movie).2.getLast? = some q → c5net q = some r →
      (tmdbLookupMovie c5net c5movie).1.title = r.Title) :=
  claim_C5 c5net c5movie

/-! ## Claim C7 -/

theorem namesDistinct_inj (f : FTree → List Char) (l : List FTree)
    (h : namesDistinct (l.map f) = true) :
    ∀ a ∈ l, ∀ b ∈ l, f a = f b → a = b := by
  induction l with
  | nil => intro a ha; simp at ha
  | cons c cs ih =>
    simp only [List.map_cons, namesDistinct, Bool.and_eq_true, decide_eq_true_eq] at h
    intro a ha b hb hab
    rcases List.mem_cons.mp ha with ha1 | ha2 <;>
      rcases List.mem_cons.mp hb with hb1 | hb2
    · rw [ha1, hb1]
    · subst ha1
      exfalso
      exact h.1 (hab ▸ List.mem_map_of_mem f hb2)
    · subst hb1
      exfalso
      exact h.1 (hab ▸ List.mem_map_of_mem f ha2)
    · exact ih h.2 a ha2 b hb2 hab

theorem wfListB_mem (ts : List FTree) (h : FTree.wfListB ts = true) :
    ∀ c ∈ ts, c.wfB = true := by
  induction ts with
  | nil => intro c hc; simp at hc
  | cons t2 ts2 ih =>
    simp only [FTree.wfListB, Bool.and_eq_true] at h
    intro c hc
    rcases List.mem_cons.mp hc with h1 | h2
    · rw [h1]; exact h.1
    · exact ih h.2 c h2

theorem wfB_dir (info : FInfo) (children : List FTree)
    (h : (FTree.dir info children).wfB = true) :
    namesDistinct (children.map (fun c => c.info.name)) = true ∧
    ∀ c ∈ children, c.wfB = true := by
  simp only [FTree.wfB, Bool.and_eq_true] at h
  exact ⟨h.1, wfListB_mem children h.2⟩

theorem walkList_mem_split (o : GOpts) (fls : List FileFilter)
    (p : List (List Char)) (ts : List FTree) (f : List (List Char))
    (h : f ∈ walkList o fls p ts) :
    ∃ c ∈ ts, f ∈ walkTree o fls p c := by
  induction ts with
  | nil => simp [walkList] at h
  | cons t2 ts2 ih =>
    rw [walkList, List.mem_append] at h
    rcases h with h1 | h2
    · exact ⟨t2, List.mem_cons_self _ _, h1⟩
    · obtain ⟨c, hc1, hc2⟩ := ih h2
      exact ⟨c, List.mem_cons_of_mem _ hc1, hc2⟩

theorem allFilesList_mem_split (p : List (List Char)) (ts : List FTree)
    (f : List (List Char)) (h : f ∈ allFilesList p ts) :
    ∃ c ∈ ts, f ∈ allFiles p c := by
  induction ts with
  | nil => simp [allFilesList] at h
  | cons t2 ts2 ih =>
    rw [allFilesList, List.mem_append] at h
    rcases h with h1 | h2
    · exact ⟨t2, List.mem_cons_self _ _, h1⟩
    · obtain ⟨c, hc1, hc2⟩ := ih h2
      exact ⟨c, List.mem_cons_of_mem _ hc1, hc2⟩

theorem walkTree_extends (o : GOpts) (fls : List FileFilter) :
    ∀ n (t : FTree), sizeOf t ≤ n → ∀ p f, f ∈ walkTree o fls p t →
      ∃ r, f = (p ++ [t.info.name]) ++ r := by
  intro n
  induction n with
  | zero =>
    intro t ht
    cases t <;> simp at ht <;> omega
  | succ n ih =>
    intro t ht p f hf
    cases t with
    | file info =>
      rw [walkTree] at hf
      by_cases ha : fls.any (fun fl => fl info)
      · rw [if_pos ha] at hf
        simp at hf
      · rw [if_neg ha] at hf
        by_cases hl : (NewLinkable o (dirOf.joinSlash (p ++ [info.name]))).2 = []
        · rw [if_pos hl] at hf
          rw [List.mem_singleton] at hf
          exact ⟨[], by simpa [FTree.info] using hf⟩
        · rw [if_neg hl] at hf
          simp at hf
    | dir info children =>
      rw [walkTree] at hf
      by_cases ha : fls.any (fun fl => fl info)
      · rw [if_pos ha] at hf
        simp at hf
      · rw [if_neg ha] at hf
        obtain ⟨c, hcmem, hcwalk⟩ := walkList_mem_split o fls _ children f hf
        have hsz : sizeOf c ≤ n := by
          have h1 := List.sizeOf_lt_of_mem hcmem
          have h2 : sizeOf (FTree.dir info children) = 1 + sizeOf info + sizeOf children := by
            simp
          omega
        obtain ⟨r, hr⟩ := ih c hsz (p ++ [info.name]) f hcwalk
        exact ⟨[c.info.name] ++ r, by simpa [FTree.info, List.append_assoc] using hr⟩

theorem allFiles_extends :
    ∀ n (t : FTree), sizeOf t ≤ n → ∀ p f, f ∈ allFiles p t →
      ∃ r, f = (p ++ [t.info.name]) ++ r := by
  intro n
  induction n with
  | zero =>
    intro t ht
    cases t <;> simp at ht <;> omega
  | succ n ih =>
    intro t ht p f hf
    cases t with
    | file info =>
      rw [allFiles, List.mem_singleton] at hf
      exact ⟨[], by simpa [FTree.info] using hf⟩
    | dir info children =>
      rw [allFiles] at hf
      obtain ⟨c, hcmem, hcf⟩ := allFilesList_mem_split _ children f hf
      have hsz : sizeOf c ≤ n := by
        have h1 := List.sizeOf_lt_of_mem hcmem
        have h2 : sizeOf (FTree.dir info children) = 1 + sizeOf info + sizeOf children := by
          simp
        omega
      obtain ⟨r, hr⟩ := ih c hsz (p ++ [info.name]) f hcf
      exact ⟨[c.info.name] ++ r, by simpa [FTree.info, List.append_assoc] using hr⟩

theorem subtree_files_extend (idxs : List Nat) :
    ∀ (p : List (List Char)) (t : FTree) (dp : List (List Char)) (d : FTree),
      subtreeAt p t idxs = some (dp, d) →
      ∀ f ∈ allFiles dp d, ∃ r, f = (p ++ [t.info.name]) ++ r := by
  induction idxs with
  | nil =>
    intro p t dp d hnav f hf
    simp only [subtreeAt, Option.some.injEq, Prod.mk.injEq] at hnav
    obtain ⟨hp, hd⟩ := hnav
    subst hp
    subst hd
    exact allFiles_extends (sizeOf t) t le_rfl p f hf
  | cons i rest ih =>
    intro p t dp d hnav f hf
    cases t with
    | file info => simp [subtreeAt] at hnav
    | dir info children =>
      simp only [subtreeAt] at hnav
      cases hc : children.get? i with
      | none => rw [hc] at hnav; simp at hnav
      | some c =>
        rw [hc] at hnav
        obtain ⟨r, hr⟩ := ih (p ++ [info.name]) c dp d hnav f hf
        exact ⟨[c.info.name] ++ r, by simpa [FTree.info, List.append_assoc] using hr⟩

/-- Claim C7: during discovery, if any filter excludes a directory, the
entire subtree rooted at that directory is pruned — no descendant file of
that directory appears in the walk output, even if it would individually
pass every file-level check (the statement quantifies over all descendant
files, whatever the filters decide about them).  Sibling names must be
distinct, as on a real filesystem. -/
theorem claim_C7 (o : GOpts) (fls : List FileFilter) (pfx : List (List Char))
    (t : FTree) (idxs : List Nat) (dpfx : List (List Char)) (d : FTree)
    (hnav : subtreeAt pfx t idxs = some (dpfx, d))
    (hwf : t.wfB = true)
    (hdir : d.isDir = true)
    (hex : ∃ fl ∈ fls, fl d.info = true) :
    ∀ f ∈ allFiles dpfx d, f ∉ walkTree o fls pfx t := by
  induction idxs generalizing pfx t with
  | nil =>
    intro f hf hwalk
    simp only [subtreeAt, Option.some.injEq, Prod.mk.injEq] at hnav
    obtain ⟨hp, hd⟩ := hnav
    subst hp
    subst hd
    have hany : fls.any (fun fl => fl t.info) = true := by
      obtain ⟨fl, hfl1, hfl2⟩ := hex
      exact List.any_eq_true.mpr ⟨fl, hfl1, hfl2⟩
    cases t with
    | file info =>
      rw [walkTree, if_pos (by simpa [FTree.info] using hany)] at hwalk
      simp at hwalk
    | dir info children =>
      rw [walkTree, if_pos (by simpa [FTree.info] using hany)] at hwalk
      simp at hwalk
  | cons i rest ih =>
    intro f hf hwalk
    cases t with
    | file info => simp [subtreeAt] at hnav
    | dir info children =>
      simp only [subtreeAt] at hnav
      cases hc : children.get? i with
      | none => rw [hc] at hnav; simp at hnav
      | some c =>
        rw [hc] at hnav
        have hcmem : c ∈ children := by
          rw [List.get?_eq_getElem?] at hc
          obtain ⟨hlt, hv⟩ := List.getElem?_eq_some.mp hc
          exact hv ▸ List.getElem_mem hlt
        obtain ⟨hnd, hwfc⟩ := wfB_dir info children hwf
        rw [walkTree] at hwalk
        by_cases ha : fls.any (fun fl => fl info)
        · rw [if_pos ha] at hwalk
          simp at hwalk
        · rw [if_neg ha] at hwalk
          obtain ⟨c2, hc2mem, hc2walk⟩ :=
            walkList_mem_split o fls _ children f hwalk
          by_cases hcc : c2 = c
          · subst hcc
            exact ih (pfx ++ [info.name]) c2 hnav (hwfc c2 hc2mem) f hf hc2walk
          · obtain ⟨r1, hr1⟩ := walkTree_extends o fls (sizeOf c2) c2 le_rfl
              (pfx ++ [info.name]) f hc2walk
            obtain ⟨r2, hr2⟩ := subtree_files_extend rest (pfx ++ [info.name]) c
              dpfx d hnav f hf
            rw [hr1] at hr2
            have heqpre : (pfx ++ [info.name]) ++ [c2.info.name] =
                (pfx ++ [info.name]) ++ [c.info.name] := by
              have hlen : ((pfx ++ [info.name]) ++ [c2.info.name]).length =
                  ((pfx ++ [info.name]) ++ [c.info.name]).length := by
                simp
              exact List.append_inj_left hr2 (by simpa using hlen)
            have hname : c2.info.name = c.info.name := by
              have := List.append_inj_right heqpre rfl
              simpa using this
            exact hcc (namesDistinct_inj (fun c => c.info.name) children hnd
              c2 hc2mem c hcmem hname)

/-- The scenario tree of the C7 witness: an excluded directory holding a
nested file that would pass every file-level filter. -/
def c7tree : FTree :=
  .dir { name := "root".data, isDir := true }
    [.dir { name := "excluded-dir".data, isDir := true }
      [.file { name := "A (1999).mkv".data }],
     .dir { name := "included".data, isDir := true }
      [.file { name := "B (2001).mkv".data }]]

/-- The exclude filter of the C7 witness, matching `excluded-dir`. -/
def c7filter : FileFilter :=
  fun info => info.name = "excluded-dir".data

theorem claim_C7_witness :
    ["root".data, "excluded-dir".data, "A (1999).mkv".data] ∉
      walkTree ⟨false⟩ [c7filter] [] c7tree :=
  claim_C7 ⟨false⟩ [c7filter] [] c7tree [0]
    ["root".data] (.dir { name := "excluded-dir".data, isDir := true }
      [.file { name := "A (1999).mkv".data }])
    rfl (by decide) (by decide) ⟨c7filter, List.mem_cons_self _ _, by decide⟩
    ["root".data, "excluded-dir".data, "A (1999).mkv".data] (by decide)

/-! ## Claim C8: movie classification failure conditions -/

/-- Claim C8 counterexample: the claim says movie classification fails
exactly when no (title, year) pair is extractable.  On the path
`movies/Foobar.mkv` no year is extractable anywhere (no date in the base
name nor in the parent directory), yet `MovieFromPath` succeeds with an
empty error list, title `Foobar` and the zero year: a year is not
required, only a non-empty title is. -/
theorem claim_C8_counterexample :
    epFind "movies/Foobar.mkv".data = none ∧
    dateFind (goExtSplit (splitPath "movies/Foobar.mkv".data).2).1 = none ∧
    dateFind (goBase (splitPath "movies/Foobar.mkv".data).1) = none ∧
    (MovieFromPath ⟨false⟩ "movies/Foobar.mkv".data).2 = [] ∧
    (MovieFromPath ⟨false⟩ "movies/Foobar.mkv".data).1.title = "Foobar".data ∧
    (MovieFromPath ⟨false⟩ "movies/Foobar.mkv".data).1.year = 0 := by
  refine ⟨?_, ?_, ?_, ?_, ?_, ?_⟩ <;> decide

/-- Claim C8 as amended: for every path without an episode marker,
`NewLinkable` delegates to `MovieFromPath`, and classification fails
exactly when the extracted title is empty; in particular a path with a
non-empty extractable title but no extractable year still classifies
successfully (with the zero year). -/
theorem claim_C8_amended (o : GOpts) (path : List Char)
    (hnoep : epFind path = none) :
    NewLinkable o path =
      (.mov (MovieFromPath o path).1, (MovieFromPath o path).2) ∧
    ((MovieFromPath o path).2 ≠ [] ↔ (MovieFromPath o path).1.title = []) ∧
    ((MovieFromPath o path).1.title ≠ [] → (MovieFromPath o path).2 = []) := by
  refine ⟨by simp only [NewLinkable, hnoep], ?_⟩
  cases hmp : MovieFromPath o path with
  | mk m errs =>
    simp only [MovieFromPath] at hmp
    injection hmp with h1 h2
    rw [h1] at h2
    show (errs ≠ [] ↔ m.title = []) ∧ (m.title ≠ [] → errs = [])
    rw [← h2]
    constructor
    · by_cases ht : m.title = [] <;> simp [ht]
    · intro ht
      rw [if_neg ht]

theorem claim_C8_amended_witness :
    NewLinkable ⟨false⟩ "movies/Foobar.1999.mkv".data =
      (.mov (MovieFromPath ⟨false⟩ "movies/Foobar.1999.mkv".data).1,
       (MovieFromPath ⟨false⟩ "movies/Foobar.1999.mkv".data).2) ∧
    ((MovieFromPath ⟨false⟩ "movies/Foobar.1999.mkv".data).2 ≠ [] ↔
      (MovieFromPath ⟨false⟩ "movies/Foobar.1999.mkv".data).1.title = []) ∧
    ((MovieFromPath ⟨false⟩ "movies/Foobar.1999.mkv".data).1.title ≠ [] →
      (MovieFromPath ⟨false⟩ "movies/Foobar.1999.mkv".data).2 = []) :=
  claim_C8_amended ⟨false⟩ "movies/Foobar.1999.mkv".data (by decide)

/-! ## Claim C9: season/episode numeric parse failure -/

/-- The C9 counterexample path: the season digit run overflows
`strconv.Atoi`. -/
def c9path : List Char := "Show.S99999999999999999999E01.mkv".data

/-- The episode-expression match data on the C9 path. -/
def c9m : EpM :=
  { gEnd := 24
    id := "S99999999999999999999E01".data
    seasonDs := "99999999999999999999".data
    ep1Ds := "01".data }

/-- Claim C9 counterexample: the claim says a season/episode numeric
parse failure sets the field to a sentinel and the file is NOT dropped.
On `Show.S99999999999999999999E01.mkv` the marker is recognised but the
season digits overflow Atoi: the season field is set to the zero value
`0` (not a distinguished sentinel such as `-1`), the error list is
non-empty, and the directory walk then DROPS the file (it emits no entry
for it), although it remains visible to the unfiltered enumeration. -/
theorem claim_C9_counterexample :
    (epFind c9path).isSome = true ∧
    (EpisodeFromPath ⟨false⟩ c9path).2 = [KErr.seasonParse] ∧
    (EpisodeFromPath ⟨false⟩ c9path).1.season = 0 ∧
    (NewLinkable ⟨false⟩ c9path).2 ≠ [] ∧
    walkTree ⟨false⟩ [] [] (.file { name := c9path }) = [] ∧
    allFiles [] (.file { name := c9path }) = [[c9path]] := by
  refine ⟨?_, ?_, ?_, ?_, ?_, ?_⟩ <;> decide

/-- Claim C9 as amended: when the season (resp. first-episode) digit run
of a recognised marker fails to parse, a parse error is recorded, the
corresponding numeric field is set to the integer zero value, and
`EpisodeFromPath` still returns an episode object which `NewLinkable`
passes through; but a file whose classification carries any error is
dropped by the walk (it contributes nothing to the walk output). -/
theorem claim_C9_amended (o : GOpts) (path : List Char) (start : Nat)
    (m : EpM)
    (hfind : epFind ((goExtSplit (splitPath path).2).1) = some (start, m)) :
    ((seasonFindStr m.id).bind (fun sm => goAtoi (sm.drop 1)) = none →
      (EpisodeFromPath o path).1.season = 0 ∧
      KErr.seasonParse ∈ (EpisodeFromPath o path).2) ∧
    (((splitCh 'e' (toLowerL m.id)).drop 1).head?.bind
        (fun e1 => goAtoi (trimSufDash e1)) = none →
      (EpisodeFromPath o path).1.episode = 0 ∧
      KErr.episodeParse ∈ (EpisodeFromPath o path).2) ∧
    ((epFind path).isSome = true →
      NewLinkable o path =
        (.ep (EpisodeFromPath o path).1, (EpisodeFromPath o path).2)) ∧
    (∀ fls pfx info,
      (NewLinkable o (dirOf.joinSlash (pfx ++ [info.name]))).2 ≠ [] →
      walkTree o fls pfx (.file info) = []) := by
  refine ⟨?_, ?_, ?_, ?_⟩
  · intro hfail
    rcases hsf : seasonFindStr m.id with _ | sm
    · constructor
      · simp only [EpisodeFromPath, hfind, hsf]
      · simp only [EpisodeFromPath, hfind, hsf]
        simp
    · rw [hsf] at hfail
      simp only [Option.some_bind] at hfail
      constructor
      · simp only [EpisodeFromPath, hfind, hsf, hfail]
      · simp only [EpisodeFromPath, hfind, hsf, hfail]
        simp
  · intro hfail
    rcases hed : (splitCh 'e' (toLowerL m.id)).drop 1 with _ | ⟨e1, erest⟩
    · constructor
      · simp only [EpisodeFromPath, hfind, hed]
      · simp only [EpisodeFromPath, hfind, hed]
        simp
    · rw [hed] at hfail
      simp only [List.head?_cons, Option.some_bind] at hfail
      constructor
      · simp only [EpisodeFromPath, hfind, hed, hfail]
      · simp only [EpisodeFromPath, hfind, hed, hfail]
        simp
  · intro hsome
    rcases hf : epFind path with _ | pr
    · rw [hf] at hsome
      exact absurd hsome (by simp)
    · simp only [NewLinkable, hf]
  · intro fls pfx info hne
    rw [walkTree]
    by_cases ha : fls.any (fun fl => fl info)
    · rw [if_pos ha]
    · rw [if_neg ha, if_neg hne]

theorem claim_C9_amended_witness :
    ((seasonFindStr c9m.id).bind (fun sm => goAtoi (sm.drop 1)) = none →
      (EpisodeFromPath ⟨false⟩ c9path).1.season = 0 ∧
      KErr.seasonParse ∈ (EpisodeFromPath ⟨false⟩ c9path).2) ∧
    (((splitCh 'e' (toLowerL c9m.id)).drop 1).head?.bind
        (fun e1 => goAtoi (trimSufDash e1)) = none →
      (EpisodeFromPath ⟨false⟩ c9path).1.episode = 0 ∧
      KErr.episodeParse ∈ (EpisodeFromPath ⟨false⟩ c9path).2) ∧
    ((epFind c9path).isSome = true →
      NewLinkable ⟨false⟩ c9path =
        (.ep (EpisodeFromPath ⟨false⟩ c9path).1,
         (EpisodeFromPath ⟨false⟩ c9path).2)) ∧
    (∀ fls pfx info,
      (NewLinkable ⟨false⟩ (dirOf.joinSlash (pfx ++ [info.name]))).2 ≠ [] →
      walkTree ⟨false⟩ fls pfx (.file info) = []) :=
  claim_C9_amended ⟨false⟩ c9path 5 c9m (by decide)

/-! ## Claim C1 infrastructure: characters, digit runs, extensions -/

/-- Numeric bounds of an ASCII digit character. -/
theorem digitCh_toNat {c : Char} (h : digitCh c = true) :
    48 ≤ c.toNat ∧ c.toNat ≤ 57 := by
  have h2 : '0' ≤ c ∧ c ≤ '9' := of_decide_eq_true h
  obtain ⟨h3, h4⟩ := h2
  rw [Char.le_def] at h3 h4
  constructor
  · have h5 : '0'.toNat ≤ c.toNat := h3
    have h6 : '0'.toNat = 48 := rfl
    omega
  · have h5 : c.toNat ≤ '9'.toNat := h4
    have h6 : '9'.toNat = 57 := rfl
    omega

/-- A digit character differs from any non-digit character. -/
theorem digit_ne {c : Char} (h : digitCh c = true) (x : Char)
    (hx : digitCh x = false) : c ≠ x := by
  intro he
  subst he
  exact Bool.noConfusion (h.symm.trans hx)

/-- ASCII lower-casing fixes digits. -/
theorem lowCh_digit {c : Char} (h : digitCh c = true) : lowCh c = c := by
  have h2 := (digitCh_toNat h).2
  rw [lowCh, if_neg]
  rintro ⟨hA, -⟩
  rw [Char.le_def] at hA
  have h3 : 'A'.toNat ≤ c.toNat := hA
  have h4 : 'A'.toNat = 65 := rfl
  omega

/-- Every character of the digit prefix is a digit. -/
theorem takeDigits_fst_digits (cs : List Char) :
    ∀ c ∈ (takeDigits cs).1, digitCh c = true := by
  induction cs with
  | nil => simp [takeDigits]
  | cons d ds ih =>
    by_cases hd : digitCh d
    · simp only [takeDigits, hd, if_true]
      intro c hc
      rcases List.mem_cons.mp hc with h | h
      · subst h; exact hd
      · exact ih c h
    · simp [takeDigits, hd]

/-- When the remainder is empty the digit prefix is everything. -/
theorem takeDigits_snd_nil (cs : List Char) (h : (takeDigits cs).2 = []) :
    (takeDigits cs).1 = cs := by
  induction cs with
  | nil => simp [takeDigits]
  | cons d ds ih =>
    by_cases hd : digitCh d
    · simp only [takeDigits, hd, if_true] at h ⊢
      simp [ih h]
    · simp [takeDigits, hd] at h

/-- The shape of a file extension as `goExtSplit` produces it: empty, or
led by the dot. -/
def extOK (ext : List Char) : Prop :=
  ext = [] ∨ ∃ t, ext = '.' :: t

theorem extOK_head (ext : List Char) (hext : extOK ext) :
    ∀ h ∈ ext.head?, ¬ digitCh h := by
  rcases hext with h | ⟨t, h⟩ <;> subst h
  · simp
  · intro x hx
    simp only [List.head?_cons, Option.mem_def, Option.some.injEq] at hx
    subst hx
    decide

/-- Appending an extension does not change the digit prefix. -/
theorem takeDigits_append_ext (cs ext : List Char) (hext : extOK ext) :
    takeDigits (cs ++ ext) = ((takeDigits cs).1, (takeDigits cs).2 ++ ext) := by
  by_cases h2 : (takeDigits cs).2 = []
  · have h1 := takeDigits_snd_nil cs h2
    have h3 := takeDigits_append_of_digits cs ext
      (fun d hd => by rw [← h1] at hd; exact takeDigits_fst_digits cs d hd)
      (extOK_head ext hext)
    rw [h3, h1, h2]
    simp
  · exact takeDigits_append_eq cs h2 ext

/-- Appending an extension preserves a successful `e`-block. -/
theorem eBlock_append_some (r ext b r3 : List Char) (hext : extOK ext)
    (h : eBlock r = some (b, r3)) :
    eBlock (r ++ ext) = some (b, r3 ++ ext) := by
  cases r with
  | nil => simp [eBlock] at h
  | cons c cs =>
    rw [List.cons_append]
    simp only [eBlock] at h ⊢
    simp only [takeDigits_append_ext cs ext hext]
    by_cases hc : c = 'e' ∨ c = 'E'
    · rw [if_pos hc] at h ⊢
      by_cases hd : (takeDigits cs).1 = []
      · rw [if_pos hd] at h; exact absurd h (by simp)
      · rw [if_neg hd] at h
        rw [if_neg hd]
        simp only [Option.some.injEq, Prod.mk.injEq] at h ⊢
        exact ⟨h.1, by rw [← h.2]⟩
    · rw [if_neg hc] at h
      exact absurd h (by simp)

/-- Appending an extension preserves a failed `e`-block. -/
theorem eBlock_append_none (r ext : List Char) (hext : extOK ext)
    (h : eBlock r = none) : eBlock (r ++ ext) = none := by
  cases r with
  | nil =>
    rcases hext with he | ⟨t, he⟩ <;> subst he
    · rfl
    · simp [eBlock]
  | cons c cs =>
    rw [List.cons_append]
    simp only [eBlock] at h ⊢
    simp only [takeDigits_append_ext cs ext hext]
    by_cases hc : c = 'e' ∨ c = 'E'
    · rw [if_pos hc] at h ⊢
      by_cases hd : (takeDigits cs).1 = []
      · rw [if_pos hd]
      · rw [if_neg hd] at h; exact absurd h (by simp)
    · rw [if_neg hc]

/-- Appending an extension preserves the block run and appends to its
rest. -/
theorem eBlocksF_append (ext : List Char) (hext : extOK ext) :
    ∀ fuel r, r.length ≤ fuel →
      eBlocksF (fuel + ext.length) (r ++ ext) =
        ((eBlocksF fuel r).1, (eBlocksF fuel r).2 ++ ext) := by
  intro fuel
  induction fuel with
  | zero =>
    intro r hr
    have hr0 : r = [] := List.length_eq_zero.mp (Nat.le_zero.mp hr)
    subst hr0
    rcases hext with he | ⟨t, he⟩ <;> subst he
    · rfl
    · simp [eBlocksF, eBlock]
  | succ f ih =>
    intro r hr
    have hfe : f + 1 + ext.length = (f + ext.length) + 1 := by omega
    cases heb : eBlock r with
    | none =>
      have h2 := eBlock_append_none r ext hext heb
      rw [hfe]
      simp [eBlocksF, h2, heb]
    | some p =>
      rcases p with ⟨bl, r2⟩
      have h2 := eBlock_append_some r ext bl r2 hext heb
      have hlen : r2.length ≤ f := by
        have := eBlock_rest_length heb
        omega
      have e2 := ih r2 hlen
      rw [hfe]
      simp [eBlocksF, h2, heb, e2]

theorem eBlocks_append (r ext : List Char) (hext : extOK ext) :
    eBlocks (r ++ ext) = ((eBlocks r).1, (eBlocks r).2 ++ ext) := by
  have h := eBlocksF_append ext hext r.length r le_rfl
  simpa [eBlocks, List.length_append] using h

/-- A successful `e`-block is an `e` and a nonempty digit run. -/
theorem eBlock_shape (r b r2 : List Char) (h : eBlock r = some (b, r2)) :
    ∃ e0 ds, b = e0 :: ds ∧ (e0 = 'e' ∨ e0 = 'E') ∧ ds ≠ [] ∧
      ∀ c ∈ ds, digitCh c = true := by
  cases r with
  | nil => simp [eBlock] at h
  | cons c cs =>
    simp only [eBlock] at h
    by_cases hc : c = 'e' ∨ c = 'E'
    · rw [if_pos hc] at h
      by_cases hd : (takeDigits cs).1 = []
      · rw [if_pos hd] at h; exact absurd h (by simp)
      · rw [if_neg hd] at h
        simp only [Option.some.injEq, Prod.mk.injEq] at h
        exact ⟨c, (takeDigits cs).1, h.1.symm, hc, hd, takeDigits_fst_digits cs⟩
    · rw [if_neg hc] at h; exact absurd h (by simp)

/-- The block-run text is empty or led by an `e`. -/
theorem eBlocksF_shape (f : Nat) (l : List Char) :
    (eBlocksF f l).1 = [] ∨
      ∃ b0 bs, (eBlocksF f l).1 = b0 :: bs ∧ (b0 = 'e' ∨ b0 = 'E') := by
  cases f with
  | zero => left; rfl
  | succ f =>
    cases heb : eBlock l with
    | none => left; simp [eBlocksF, heb]
    | some p =>
      rcases p with ⟨b, r⟩
      obtain ⟨e0, ds, hb, he0, -, -⟩ := eBlock_shape l b r heb
      right
      refine ⟨e0, ds ++ (eBlocksF f r).1, ?_, he0⟩
      simp [eBlocksF, heb, hb]

theorem eBlocks_shape (l : List Char) :
    (eBlocks l).1 = [] ∨
      ∃ b0 bs, (eBlocks l).1 = b0 :: bs ∧ (b0 = 'e' ∨ b0 = 'E') :=
  eBlocksF_shape l.length l

/-! ## Claim C1 infrastructure: the marker match under an extension -/

/-- `epTail` on a dash-led rest, as an explicit conditional. -/
theorem epTail_dash (s0 : Char) (ds : List Char) (dot : Nat)
    (g2 r4 : List Char) :
    epMatchHere.epTail s0 ds dot g2 ('-' :: r4) =
      if (eBlocks r4).1 = [] then
        { gEnd := 1 + ds.length + dot + g2.length
          id := (s0 :: ds) ++ g2
          seasonDs := ds
          ep1Ds := g2.drop 1 }
      else
        { gEnd := 1 + ds.length + dot + g2.length + 1 + (eBlocks r4).1.length
          id := (s0 :: ds) ++ g2 ++ (eBlocks r4).1
          seasonDs := ds
          ep1Ds := g2.drop 1 } := rfl

/-- `epTail` on a rest not led by a dash, as an explicit conditional. -/
theorem epTail_nodash (s0 : Char) (ds : List Char) (dot : Nat)
    (g2 r3 : List Char) (h : ∀ r4, r3 ≠ '-' :: r4) :
    epMatchHere.epTail s0 ds dot g2 r3 =
      if (eBlocks r3).1 = [] then
        { gEnd := 1 + ds.length + dot + g2.length
          id := (s0 :: ds) ++ g2
          seasonDs := ds
          ep1Ds := g2.drop 1 }
      else
        { gEnd := 1 + ds.length + dot + g2.length + (eBlocks r3).1.length
          id := (s0 :: ds) ++ g2 ++ (eBlocks r3).1
          seasonDs := ds
          ep1Ds := g2.drop 1 } := by
  unfold epMatchHere.epTail
  split
  · rename_i r4
    exact absurd rfl (h r4)
  · rfl

/-- Appending an extension to the post-group rest leaves the assembled
match data unchanged. -/
theorem epTail_append (s0 : Char) (ds : List Char) (dot : Nat)
    (g2 r3 ext : List Char) (hext : extOK ext) :
    epMatchHere.epTail s0 ds dot g2 (r3 ++ ext) =
      epMatchHere.epTail s0 ds dot g2 r3 := by
  rcases r3 with _ | ⟨x, r4⟩
  · simp only [List.nil_append]
    have hne : ∀ r4, ext ≠ '-' :: r4 := by
      rcases hext with he | ⟨t, he⟩ <;> subst he
      · simp
      · intro r4 hcon
        rw [List.cons.injEq] at hcon
        exact absurd hcon.1 (by decide)
    rw [epTail_nodash s0 ds dot g2 ext hne,
        epTail_nodash s0 ds dot g2 [] (by simp)]
    have h1 : (eBlocks ext).1 = ([] : List Char) := by
      rcases hext with he | ⟨t, he⟩ <;> subst he
      · rfl
      · simp [eBlocks, eBlocksF, eBlock]
    rw [h1]
    rfl
  · by_cases hx : x = '-'
    · subst hx
      rw [List.cons_append, epTail_dash, epTail_dash]
      have h1 : (eBlocks (r4 ++ ext)).1 = (eBlocks r4).1 := by
        simpa using congrArg Prod.fst (eBlocks_append r4 ext hext)
      rw [h1]
    · have hne1 : ∀ r4', x :: (r4 ++ ext) ≠ '-' :: r4' := by
        intro r4' hcon
        rw [List.cons.injEq] at hcon
        exact hx hcon.1
      have hne2 : ∀ r4', x :: r4 ≠ '-' :: r4' := by
        intro r4' hcon
        rw [List.cons.injEq] at hcon
        exact hx hcon.1
      rw [List.cons_append, epTail_nodash s0 ds dot g2 _ hne1,
          epTail_nodash s0 ds dot g2 _ hne2]
      have h1 : (eBlocks (x :: (r4 ++ ext))).1 = (eBlocks (x :: r4)).1 := by
        simpa using congrArg Prod.fst (eBlocks_append (x :: r4) ext hext)
      rw [h1]

/-- Appending an extension preserves the no-dot continuation. -/
theorem epNoDot_append (s0 : Char) (ds r1 ext : List Char) (m : EpM)
    (hext : extOK ext) (h : epMatchHere.epNoDot s0 ds r1 = some m) :
    epMatchHere.epNoDot s0 ds (r1 ++ ext) = some m := by
  cases heb : eBlock r1 with
  | none =>
    simp only [epMatchHere.epNoDot, heb] at h
    exact Option.noConfusion h
  | some p =>
    rcases p with ⟨g2, r3⟩
    simp only [epMatchHere.epNoDot, heb] at h
    simp only [epMatchHere.epNoDot, eBlock_append_some r1 ext g2 r3 hext heb]
    rw [epTail_append s0 ds 0 g2 r3 ext hext]
    exact h

/-- Appending an extension preserves the continuation after group 1. -/
theorem epAfterG1_append (s0 : Char) (ds r1 ext : List Char) (m : EpM)
    (hext : extOK ext) (h : epMatchHere.epAfterG1 s0 ds r1 = some m) :
    epMatchHere.epAfterG1 s0 ds (r1 ++ ext) = some m := by
  rcases r1 with _ | ⟨x, r2⟩
  · simp only [epMatchHere.epAfterG1, epMatchHere.epNoDot, eBlock] at h
    exact Option.noConfusion h
  · rw [List.cons_append]
    simp only [epMatchHere.epAfterG1] at h ⊢
    by_cases hnl : x = '\n'
    · rw [if_neg (by simp [hnl])] at h
      rw [if_neg (by simp [hnl])]
      rw [← List.cons_append]
      exact epNoDot_append s0 ds (x :: r2) ext m hext h
    · rw [if_pos hnl] at h
      rw [if_pos hnl]
      cases heb : eBlock r2 with
      | none =>
        rw [heb] at h
        simp only at h
        simp only [eBlock_append_none r2 ext hext heb]
        rw [← List.cons_append]
        exact epNoDot_append s0 ds (x :: r2) ext m hext h
      | some p =>
        rcases p with ⟨g2, r3⟩
        rw [heb] at h
        simp only at h
        simp only [eBlock_append_some r2 ext g2 r3 hext heb]
        rw [epTail_append s0 ds 1 g2 r3 ext hext]
        exact h

/-- Appending an extension preserves a marker match, with the same match
data. -/
theorem epMatchHere_append (l ext : List Char) (m : EpM) (hext : extOK ext)
    (h : epMatchHere l = some m) : epMatchHere (l ++ ext) = some m := by
  rcases l with _ | ⟨c, cs⟩
  · simp [epMatchHere] at h
  · rw [List.cons_append]
    simp only [epMatchHere] at h ⊢
    simp only [takeDigits_append_ext cs ext hext]
    by_cases hc : c = 's' ∨ c = 'S'
    · rw [if_pos hc] at h ⊢
      by_cases hd : (takeDigits cs).1 = []
      · rw [if_pos hd] at h; exact absurd h (by simp)
      · rw [if_neg hd] at h
        rw [if_neg hd]
        exact epAfterG1_append c (takeDigits cs).1 (takeDigits cs).2 ext m hext h
    · rw [if_neg hc] at h; exact absurd h (by simp)

/-! ## Claim C1 infrastructure: structure of a successful marker match -/

/-- A successful continuation after group 1 is some `epTail` assembly on
a genuine `e`-block. -/
theorem epAfterG1_res (s0 : Char) (ds r1 : List Char) (m : EpM)
    (h : epMatchHere.epAfterG1 s0 ds r1 = some m) :
    ∃ dot g2 r3,
      (∃ e0 eds, g2 = e0 :: eds ∧ (e0 = 'e' ∨ e0 = 'E') ∧ eds ≠ [] ∧
        ∀ c ∈ eds, digitCh c = true) ∧
      m = epMatchHere.epTail s0 ds dot g2 r3 := by
  have hnod : ∀ r, epMatchHere.epNoDot s0 ds r = some m →
      ∃ dot g2 r3,
        (∃ e0 eds, g2 = e0 :: eds ∧ (e0 = 'e' ∨ e0 = 'E') ∧ eds ≠ [] ∧
          ∀ c ∈ eds, digitCh c = true) ∧
        m = epMatchHere.epTail s0 ds dot g2 r3 := by
    intro r hr
    cases heb : eBlock r with
    | none =>
      simp only [epMatchHere.epNoDot, heb] at hr
      exact Option.noConfusion hr
    | some p =>
      rcases p with ⟨g2, r3⟩
      simp only [epMatchHere.epNoDot, heb, Option.some.injEq] at hr
      obtain ⟨e0, eds, hg2, he0, hne, heds⟩ := eBlock_shape r g2 r3 heb
      exact ⟨0, g2, r3, ⟨e0, eds, hg2, he0, hne, heds⟩, hr.symm⟩
  rcases r1 with _ | ⟨x, r2⟩
  · simp only [epMatchHere.epAfterG1] at h
    exact hnod [] h
  · simp only [epMatchHere.epAfterG1] at h
    by_cases hnl : x = '\n'
    · rw [if_neg (by simp [hnl])] at h
      exact hnod (x :: r2) h
    · rw [if_pos hnl] at h
      cases heb : eBlock r2 with
      | none =>
        rw [heb] at h
        simp only at h
        exact hnod (x :: r2) h
      | some p =>
        rcases p with ⟨g2, r3⟩
        rw [heb] at h
        simp only [Option.some.injEq] at h
        obtain ⟨e0, eds, hg2, he0, hne, heds⟩ := eBlock_shape r2 g2 r3 heb
        exact ⟨1, g2, r3, ⟨e0, eds, hg2, he0, hne, heds⟩, h.symm⟩

/-- The assembled match data: season digits, first-episode digits, and a
possibly empty `e`-led block run. -/
theorem epTail_shape (s0 : Char) (ds : List Char) (dot : Nat)
    (g2 r3 : List Char) :
    ∃ blocks,
      (epMatchHere.epTail s0 ds dot g2 r3).id = (s0 :: ds) ++ g2 ++ blocks ∧
      (epMatchHere.epTail s0 ds dot g2 r3).seasonDs = ds ∧
      (epMatchHere.epTail s0 ds dot g2 r3).ep1Ds = g2.drop 1 ∧
      (blocks = [] ∨ ∃ b0 bs, blocks = b0 :: bs ∧ (b0 = 'e' ∨ b0 = 'E')) := by
  rcases r3 with _ | ⟨x, r4⟩
  · rw [epTail_nodash s0 ds dot g2 [] (by simp)]
    refine ⟨[], ?_, ?_, ?_, Or.inl rfl⟩ <;> simp [eBlocks, eBlocksF]
  · by_cases hx : x = '-'
    · subst hx
      rw [epTail_dash]
      by_cases hb : (eBlocks r4).1 = []
      · rw [if_pos hb]
        exact ⟨[], by simp, rfl, rfl, Or.inl rfl⟩
      · rw [if_neg hb]
        refine ⟨(eBlocks r4).1, by simp, rfl, rfl, ?_⟩
        rcases eBlocks_shape r4 with h | h
        · exact absurd h hb
        · exact Or.inr h
    · rw [epTail_nodash s0 ds dot g2 (x :: r4)
        (by intro r4' hcon; rw [List.cons.injEq] at hcon; exact hx hcon.1)]
      by_cases hb : (eBlocks (x :: r4)).1 = []
      · rw [if_pos hb]
        exact ⟨[], by simp, rfl, rfl, Or.inl rfl⟩
      · rw [if_neg hb]
        refine ⟨(eBlocks (x :: r4)).1, by simp, rfl, rfl, ?_⟩
        rcases eBlocks_shape (x :: r4) with h | h
        · exact absurd h hb
        · exact Or.inr h

/-- Full structure of a successful marker match. -/
theorem epMatchHere_shape (l : List Char) (m : EpM) (h : epMatchHere l = some m) :
    ∃ s0 ds e0 eds blocks,
      m.id = s0 :: (ds ++ e0 :: (eds ++ blocks)) ∧
      m.seasonDs = ds ∧ m.ep1Ds = eds ∧
      (s0 = 's' ∨ s0 = 'S') ∧ ds ≠ [] ∧ (∀ c ∈ ds, digitCh c = true) ∧
      (e0 = 'e' ∨ e0 = 'E') ∧ eds ≠ [] ∧ (∀ c ∈ eds, digitCh c = true) ∧
      (blocks = [] ∨ ∃ b0 bs, blocks = b0 :: bs ∧ (b0 = 'e' ∨ b0 = 'E')) := by
  rcases l with _ | ⟨c, cs⟩
  · simp [epMatchHere] at h
  · simp only [epMatchHere] at h
    by_cases hc : c = 's' ∨ c = 'S'
    · rw [if_pos hc] at h
      by_cases hd : (takeDigits cs).1 = []
      · rw [if_pos hd] at h; exact absurd h (by simp)
      · rw [if_neg hd] at h
        obtain ⟨dot, g2, r3, ⟨e0, eds, hg2, he0, hne, heds⟩, hm⟩ :=
          epAfterG1_res c (takeDigits cs).1 (takeDigits cs).2 m h
        obtain ⟨blocks, hid, hsds, hep1, hbl⟩ :=
          epTail_shape c (takeDigits cs).1 dot g2 r3
        rw [← hm] at hid hsds hep1
        refine ⟨c, (takeDigits cs).1, e0, eds, blocks, ?_, hsds, ?_, hc, hd,
          takeDigits_fst_digits cs, he0, hne, heds, hbl⟩
        · rw [hid, hg2]
          simp
        · rw [hep1, hg2]
          simp
    · rw [if_neg hc] at h; exact absurd h (by simp)

/-! ## Claim C1 infrastructure: season text, episode split, trims -/

/-- `seasonExpr` matches at the head of an `s`+digits prefix whose
continuation does not extend the digit run. -/
theorem seasonFindStr_at_head (s0 : Char) (ds rest : List Char)
    (hs0 : s0 = 's' ∨ s0 = 'S') (hds : ds ≠ [])
    (hdig : ∀ c ∈ ds, digitCh c = true)
    (hrest : ∀ h ∈ rest.head?, ¬ digitCh h) :
    seasonFindStr (s0 :: (ds ++ rest)) = some (s0 :: ds) := by
  simp only [seasonFindStr]
  simp only [takeDigits_append_of_digits ds rest hdig hrest]
  rw [if_pos ⟨hs0, hds⟩]

/-- Splitting a list without the separator yields one field. -/
theorem splitCh_no_sep (sep : Char) (xs : List Char)
    (h : ∀ c ∈ xs, c ≠ sep) : splitCh sep xs = [xs] := by
  induction xs with
  | nil => rfl
  | cons x xs ih =>
    have hx : ¬ x = sep := h x (by simp)
    rw [splitCh_cons_of_ne sep x xs hx, ih (fun c hc => h c (by simp [hc]))]
    simp

/-- Splitting past a separator-free prefix. -/
theorem splitCh_append_sep (sep : Char) (xs ys : List Char)
    (h : ∀ c ∈ xs, c ≠ sep) :
    splitCh sep (xs ++ sep :: ys) = xs :: splitCh sep ys := by
  induction xs with
  | nil => simp [splitCh_cons_sep]
  | cons x xs ih =>
    have hx : ¬ x = sep := h x (by simp)
    rw [List.cons_append, splitCh_cons_of_ne sep x _ hx,
        ih (fun c hc => h c (by simp [hc]))]
    simp

/-- Lower-casing fixes an all-digit list. -/
theorem toLowerL_digits (l : List Char) (h : ∀ c ∈ l, digitCh c = true) :
    toLowerL l = l := by
  induction l with
  | nil => rfl
  | cons c cs ih =>
    simp only [toLowerL, List.map_cons]
    rw [show lowCh c = c from lowCh_digit (h c (by simp))]
    have := ih (fun x hx => h x (by simp [hx]))
    simp only [toLowerL] at this
    rw [this]

/-- Trimming a trailing dash fixes an all-digit list. -/
theorem trimSufDash_digits (l : List Char) (h : ∀ c ∈ l, digitCh c = true) :
    trimSufDash l = l := by
  cases hl : l.getLast? with
  | none => rw [trimSufDash, hl]; simp
  | some c =>
    have hc : digitCh c = true := h c (List.mem_of_mem_getLast? hl)
    have hne : ¬ (l.getLast? = some '-') := by
      rw [hl]
      simp only [Option.some.injEq]
      exact digit_ne hc '-' (by decide)
    rw [trimSufDash, if_neg hne]

/-- The facts about a successful marker match consumed by
`EpisodeFromPath`: the season expression recovers the season digits, the
`e`-split exposes the first episode digits, and they carry no dash. -/
theorem epM_good (l : List Char) (m : EpM) (h : epMatchHere l = some m) :
    (∃ s0, (s0 = 's' ∨ s0 = 'S') ∧
      seasonFindStr m.id = some (s0 :: m.seasonDs)) ∧
    (∃ rest2, (splitCh 'e' (toLowerL m.id)).drop 1 = m.ep1Ds :: rest2) ∧
    trimSufDash m.ep1Ds = m.ep1Ds := by
  obtain ⟨s0, ds, e0, eds, blocks, hid, hsds, hep1, hs0, hdsne, hdsdig,
    he0, hedsne, hedsdig, hbl⟩ := epMatchHere_shape l m h
  refine ⟨⟨s0, hs0, ?_⟩, ?_, ?_⟩
  · rw [hid, hsds]
    exact seasonFindStr_at_head s0 ds (e0 :: (eds ++ blocks)) hs0 hdsne hdsdig
      (by
        intro x hx
        simp only [List.head?_cons, Option.mem_def, Option.some.injEq] at hx
        subst hx
        rcases he0 with he | he <;> subst he <;> decide)
  · rw [hid, hep1]
    have hlow : toLowerL (s0 :: (ds ++ e0 :: (eds ++ blocks))) =
        's' :: (ds ++ 'e' :: (eds ++ toLowerL blocks)) := by
      simp only [toLowerL, List.map_cons, List.map_append]
      rw [show lowCh s0 = 's' by rcases hs0 with he | he <;> subst he <;> decide]
      rw [show lowCh e0 = 'e' by rcases he0 with he | he <;> subst he <;> decide]
      have h1 := toLowerL_digits ds hdsdig
      have h2 := toLowerL_digits eds hedsdig
      simp only [toLowerL] at h1 h2
      rw [h1, h2]
    rw [hlow]
    have hfirst : ∀ c ∈ 's' :: ds, c ≠ 'e' := by
      intro c hc
      rcases List.mem_cons.mp hc with h1 | h1
      · subst h1; decide
      · exact digit_ne (hdsdig c h1) 'e' (by decide)
    have hstep : splitCh 'e' ('s' :: (ds ++ 'e' :: (eds ++ toLowerL blocks))) =
        ('s' :: ds) :: splitCh 'e' (eds ++ toLowerL blocks) := by
      have := splitCh_append_sep 'e' ('s' :: ds) (eds ++ toLowerL blocks) hfirst
      simpa using this
    rw [hstep]
    simp only [List.drop_succ_cons, List.drop_zero]
    have hedsne2 : ∀ c ∈ eds, c ≠ 'e' :=
      fun c hc => digit_ne (hedsdig c hc) 'e' (by decide)
    rcases hbl with hb | ⟨b0, bs, hbs, hb0⟩
    · subst hb
      rw [show eds ++ toLowerL [] = eds by simp [toLowerL]]
      rw [splitCh_no_sep 'e' eds hedsne2]
      exact ⟨[], rfl⟩
    · subst hbs
      have hlb : toLowerL (b0 :: bs) = 'e' :: toLowerL bs := by
        simp only [toLowerL, List.map_cons]
        rw [show lowCh b0 = 'e' by rcases hb0 with he | he <;> subst he <;> decide]
      rw [hlb, splitCh_append_sep 'e' eds (toLowerL bs) hedsne2]
      exact ⟨splitCh 'e' (toLowerL bs), rfl⟩
  · rw [hep1]
    exact trimSufDash_digits eds hedsdig

/-! ## Claim C1 infrastructure: the date text always yields a year -/

/-- Atoi on four digit characters always succeeds. -/
theorem goAtoi_four (y1 y2 y3 y4 : Char) (h1 : digitCh y1 = true)
    (h2 : digitCh y2 = true) (h3 : digitCh y3 = true)
    (h4 : digitCh y4 = true) :
    goAtoi [y1, y2, y3, y4] = some (digitsVal [y1, y2, y3, y4]) := by
  have b1 := digitCh_toNat h1
  have b2 := digitCh_toNat h2
  have b3 := digitCh_toNat h3
  have b4 := digitCh_toNat h4
  have hval : digitsVal [y1, y2, y3, y4] ≤ 9223372036854775807 := by
    simp only [digitsVal, List.foldl]
    omega
  simp only [goAtoi]
  rw [if_neg (by simp : ¬([y1, y2, y3, y4] : List Char) = [])]
  rw [if_pos (by simp [h1, h2, h3, h4] : ([y1, y2, y3, y4].all digitCh) = true)]
  rw [if_pos hval]
  rfl

/-- The optional date suffix always begins with the dash. -/
theorem dateSuffix_shape (r sfx r2 : List Char)
    (h : dateSuffix r = some (sfx, r2)) : ∃ t, sfx = '-' :: t := by
  unfold dateSuffix at h
  split at h
  · rename_i rest
    cases hf : dateSufFirst rest with
    | none => rw [hf] at h; exact Option.noConfusion h
    | some p =>
      rcases p with ⟨d1, r1⟩
      rw [hf] at h
      simp only at h
      cases hs : dateSufSecond r1 with
      | none => rw [hs] at h; exact Option.noConfusion h
      | some q =>
        rcases q with ⟨d2, r2'⟩
        rw [hs] at h
        simp only [Option.some.injEq, Prod.mk.injEq] at h
        exact ⟨d1 ++ '-' :: d2, h.1.symm⟩
  · exact Option.noConfusion h

/-- The year prefix of a date match always parses. -/
theorem dateMatchHere_atoi (prev : Option Char) (l t : List Char)
    (h : dateMatchHere prev l = some t) :
    ∃ v : Int, goAtoi (cutDashFst t) = some v := by
  simp only [dateMatchHere] at h
  by_cases hp : prev.any wordCh
  · rw [if_pos hp] at h; exact Option.noConfusion h
  · rw [if_neg hp] at h
    split at h
    · rename_i y1 y2 y3 y4 rest
      by_cases hcond : ((y1 = '1' ∧ y2 = '9') ∨ (y1 = '2' ∧ y2 = '0')) ∧
          digitCh y3 ∧ digitCh y4 ∧ bAfter true rest
      · rw [if_pos hcond] at h
        obtain ⟨hy12, hy3, hy4, -⟩ := hcond
        have hd1 : digitCh y1 = true := by
          rcases hy12 with ⟨ha, -⟩ | ⟨ha, -⟩ <;> subst ha <;> decide
        have hd2 : digitCh y2 = true := by
          rcases hy12 with ⟨-, ha⟩ | ⟨-, ha⟩ <;> subst ha <;> decide
        have hne1 : y1 ≠ '-' := digit_ne hd1 '-' (by decide)
        have hne2 : y2 ≠ '-' := digit_ne hd2 '-' (by decide)
        have hne3 : y3 ≠ '-' := digit_ne hy3 '-' (by decide)
        have hne4 : y4 ≠ '-' := digit_ne hy4 '-' (by decide)
        have hcut : cutDashFst t = [y1, y2, y3, y4] := by
          cases hsfx : dateSuffix rest with
          | some p =>
            rcases p with ⟨sfx, r2⟩
            rw [hsfx] at h
            simp only [Option.some.injEq] at h
            obtain ⟨tt, hts⟩ := dateSuffix_shape rest sfx r2 hsfx
            rw [← h, hts]
            simp [cutDashFst, List.takeWhile, hne1, hne2, hne3, hne4]
          | none =>
            rw [hsfx] at h
            simp only [Option.some.injEq] at h
            rw [← h]
            simp [cutDashFst, List.takeWhile, hne1, hne2, hne3, hne4]
        rw [hcut]
        exact ⟨digitsVal [y1, y2, y3, y4],
          goAtoi_four y1 y2 y3 y4 hd1 hd2 hy3 hy4⟩
      · rw [if_neg hcond] at h; exact Option.noConfusion h
    · exact Option.noConfusion h

/-- Any date the scan finds has a parseable year prefix. -/
theorem dateFindAux_atoi (l : List Char) :
    ∀ prev i t, dateFindAux prev l = some (i, t) →
      ∃ v : Int, goAtoi (cutDashFst t) = some v := by
  induction l with
  | nil => intro prev i t h; exact Option.noConfusion h
  | cons c cs ih =>
    intro prev i t h
    simp only [dateFindAux] at h
    cases hm : dateMatchHere prev (c :: cs) with
    | some t0 =>
      rw [hm] at h
      simp only [Option.some.injEq, Prod.mk.injEq] at h
      rw [← h.2]
      exact dateMatchHere_atoi prev (c :: cs) t0 hm
    | none =>
      rw [hm] at h
      simp only at h
      cases hr : dateFindAux (some c) cs with
      | none => rw [hr] at h; exact Option.noConfusion h
      | some p =>
        rcases p with ⟨i2, t2⟩
        rw [hr] at h
        simp only [Option.some.injEq, Prod.mk.injEq] at h
        rw [← h.2]
        exact ih (some c) i2 t2 hr

theorem dateFind_atoi (l : List Char) (i : Nat) (t : List Char)
    (h : dateFind l = some (i, t)) :
    ∃ v : Int, goAtoi (cutDashFst t) = some v :=
  dateFindAux_atoi l none i t h

/-! ## Claim C1 infrastructure: extension shape, leftmost search -/

/-- The extension part of `goExtSplit` is empty or starts at the dot. -/
theorem goExtSplit_ext_shape (file : List Char) : extOK (goExtSplit file).2 := by
  simp only [goExtSplit]
  by_cases h : (file.reverse.takeWhile (· ≠ '.')).length = file.length
  · rw [if_pos h]
    exact Or.inl rfl
  · rw [if_neg h]
    right
    have hsplit : file.reverse.takeWhile (· ≠ '.') ++
        file.reverse.dropWhile (· ≠ '.') = file.reverse :=
      List.takeWhile_append_dropWhile (· ≠ '.') file.reverse
    have hdne : file.reverse.dropWhile (· ≠ '.') ≠ [] := by
      intro hcon
      apply h
      rw [hcon, List.append_nil] at hsplit
      have := congrArg List.length hsplit
      simpa using this
    have hd2 : (file.reverse.dropWhile (· ≠ '.')).head hdne = '.' := by
      have hh := List.head_dropWhile_not (· ≠ '.') file.reverse hdne
      simpa using hh
    obtain ⟨dtail, hdw⟩ : ∃ t, file.reverse.dropWhile (· ≠ '.') = '.' :: t := by
      have h6 : (file.reverse.dropWhile (· ≠ '.')).head? = some '.' := by
        rw [List.head?_eq_head hdne, hd2]
      rcases hq : file.reverse.dropWhile (· ≠ '.') with _ | ⟨a, tl2⟩
      · exact absurd hq hdne
      · rw [hq] at h6
        simp only [List.head?_cons, Option.some.injEq] at h6
        exact ⟨tl2, by rw [h6]⟩
    have hfile : file = dtail.reverse ++
        ('.' :: (file.reverse.takeWhile (· ≠ '.')).reverse) := by
      conv_lhs => rw [← List.reverse_reverse file, ← hsplit]
      rw [hdw]
      simp
    have hlenf := congrArg List.length hfile
    simp only [List.length_append, List.length_cons, List.length_reverse] at hlenf
    refine ⟨(file.reverse.takeWhile (· ≠ '.')).reverse, ?_⟩
    have he1 : file.length - (file.reverse.takeWhile (· ≠ '.')).length - 1 =
        dtail.reverse.length := by
      simp only [List.length_reverse]
      omega
    rw [he1]
    conv_lhs => rw [hfile]
    exact List.drop_left dtail.reverse ('.' :: (file.reverse.takeWhile (· ≠ '.')).reverse)

/-- The match data of a leftmost search matches at the found offset. -/
theorem epFind_drop (l : List Char) : ∀ i m, epFind l = some (i, m) →
    epMatchHere (l.drop i) = some m := by
  induction l with
  | nil => intro i m h; exact Option.noConfusion h
  | cons c cs ih =>
    intro i m h
    simp only [epFind] at h
    cases hm : epMatchHere (c :: cs) with
    | some m0 =>
      rw [hm] at h
      simp only [Option.some.injEq, Prod.mk.injEq] at h
      obtain ⟨hi, hm2⟩ := h
      subst hi
      subst hm2
      simpa using hm
    | none =>
      rw [hm] at h
      simp only at h
      cases hr : epFind cs with
      | none => rw [hr] at h; exact Option.noConfusion h
      | some p =>
        rcases p with ⟨i2, m2⟩
        rw [hr] at h
        simp only [Option.some.injEq, Prod.mk.injEq] at h
        obtain ⟨hi, hm2⟩ := h
        subst hm2
        rw [← hi]
        simp only [List.drop_succ_cons]
        exact ih i2 m2 hr

/-- A match anywhere in a suffix makes the leftmost search succeed. -/
theorem epFind_append_isSome (pre s : List Char) (m : EpM)
    (h : epMatchHere s = some m) : (epFind (pre ++ s)).isSome = true := by
  induction pre with
  | nil =>
    simp only [List.nil_append]
    rcases s with _ | ⟨c, cs⟩
    · simp [epMatchHere] at h
    · simp [epFind, h]
  | cons p ps ih =>
    rw [List.cons_append]
    cases hm : epMatchHere (p :: (ps ++ s)) with
    | some m0 => simp [epFind, hm]
    | none =>
      cases hr : epFind (ps ++ s) with
      | none => simp [hr] at ih
      | some p2 =>
        rcases p2 with ⟨i, m2⟩
        simp [epFind, hm, hr]

/-- A marker in the stripped base name implies a marker in the whole
path. -/
theorem epFind_path_some (path : List Char) (start : Nat) (m : EpM)
    (hfind : epFind ((goExtSplit (splitPath path).2).1) = some (start, m)) :
    (epFind path).isSome = true := by
  have hmh := epFind_drop ((goExtSplit (splitPath path).2).1) start m hfind
  have hext := goExtSplit_ext_shape (splitPath path).2
  have hmh2 : epMatchHere (((goExtSplit (splitPath path).2).1).drop start ++
      (goExtSplit (splitPath path).2).2) = some m :=
    epMatchHere_append _ _ m hext hmh
  have hpath : ((splitPath path).1 ++
      ((goExtSplit (splitPath path).2).1).take start) ++
      (((goExtSplit (splitPath path).2).1).drop start ++
        (goExtSplit (splitPath path).2).2) = path := by
    conv_rhs => rw [← splitPath_append path, ← goExtSplit_append (splitPath path).2,
      ← List.take_append_drop start ((goExtSplit (splitPath path).2).1)]
    simp only [List.append_assoc]
  rw [← hpath]
  exact epFind_append_isSome _ _ m hmh2

/-! ## Claim C1: marker presence and classification -/

/-- Claim C1 counterexample: the claim says every path containing an
episode marker classifies as an Episode with the marker's numbers, and
every path without one as a Movie.  On `shows.s01e05/video.mkv` the
marker sits in a DIRECTORY name: `NewLinkable` sees it in the full path
and commits to the episode branch, but `EpisodeFromPath` scans only the
stripped base name `video`, finds nothing, and fails — the result is an
error with an empty episode object (season 0, not 1), and no Movie is
produced either. -/
theorem claim_C1_counterexample :
    (epFind "shows.s01e05/video.mkv".data).isSome = true ∧
    (NewLinkable ⟨false⟩ "shows.s01e05/video.mkv".data).2 =
      [KErr.noEpisodeID] ∧
    (NewLinkable ⟨false⟩ "shows.s01e05/video.mkv".data).1 =
      .ep { path := "shows.s01e05/video.mkv".data } := by
  refine ⟨?_, ?_, ?_⟩ <;> decide

/-- Claim C1 as amended: when the STRIPPED BASE NAME of the final path
component contains an episode marker and both digit runs parse, the path
classifies without error as an Episode whose season and episode are the
marker's numeric values (the first episode number being canonical) and
whose id is the marker text; when the full path contains no marker, the
movie branch is taken. -/
theorem claim_C1_amended (o : GOpts) (path : List Char) (start : Nat)
    (m : EpM) (sv ev : Int)
    (hfind : epFind ((goExtSplit (splitPath path).2).1) = some (start, m))
    (hsv : goAtoi m.seasonDs = some sv)
    (hev : goAtoi m.ep1Ds = some ev) :
    (∃ e : EpisodeT,
      NewLinkable o path = (.ep e, []) ∧
      e.season = sv ∧ e.episode = ev ∧ e.id = m.id) ∧
    (∀ q, epFind q = none →
      NewLinkable o q = (.mov (MovieFromPath o q).1, (MovieFromPath o q).2)) := by
  constructor
  · have hmh := epFind_drop _ start m hfind
    obtain ⟨⟨s0, hs0, hsf⟩, ⟨rest2, hsplit⟩, htrim⟩ := epM_good _ m hmh
    have hid : (EpisodeFromPath o path).1.id = m.id := by
      simp only [EpisodeFromPath, hfind]
    have hseason : (EpisodeFromPath o path).1.season = sv := by
      simp only [EpisodeFromPath, hfind, hsf, List.drop_succ_cons,
        List.drop_zero, hsv]
    have hepis : (EpisodeFromPath o path).1.episode = ev := by
      simp only [EpisodeFromPath, hfind, hsplit, htrim, hev]
    have herrs : (EpisodeFromPath o path).2 = [] := by
      rcases hdf : dateFind ((goExtSplit (splitPath path).2).1) with _ | ⟨d0, dtext⟩
      · simp only [EpisodeFromPath, hfind, hsf, List.drop_succ_cons,
          List.drop_zero, hsv, hsplit, htrim, hev, hdf]
        simp
      · obtain ⟨v, hv⟩ := dateFind_atoi _ d0 dtext hdf
        simp only [EpisodeFromPath, hfind, hsf, List.drop_succ_cons,
          List.drop_zero, hsv, hsplit, htrim, hev, hdf, hv]
        simp
    have hsome := epFind_path_some path start m hfind
    rw [Option.isSome_iff_exists] at hsome
    obtain ⟨pr, hpr⟩ := hsome
    refine ⟨(EpisodeFromPath o path).1, ?_, hseason, hepis, hid⟩
    simp only [NewLinkable, hpr]
    rw [herrs]
  · intro q hq
    simp only [NewLinkable, hq]

theorem claim_C1_amended_witness :
    (∃ e : EpisodeT,
      NewLinkable ⟨false⟩ "theatre/Show.S01E05.mkv".data = (.ep e, []) ∧
      e.season = 1 ∧ e.episode = 5 ∧ e.id = "S01E05".data) ∧
    (∀ q, epFind q = none →
      NewLinkable ⟨false⟩ q =
        (.mov (MovieFromPath ⟨false⟩ q).1, (MovieFromPath ⟨false⟩ q).2)) :=
  claim_C1_amended ⟨false⟩ "theatre/Show.S01E05.mkv".data 5
    { gEnd := 6, id := "S01E05".data, seasonDs := "01".data,
      ep1Ds := "05".data }
    1 5 (by decide) (by decide) (by decide)
